import Mathlib

/-!
Verification of the memory engine of the `askgloom/toolkit` repository
(`src/memory/memory_store.cpp`, `src/memory/episodic.cpp`,
`src/memory/semantic.cpp`).

The three stores are shallowly embedded:

* `std::unordered_map<std::string, V>` becomes an association list
  `List (String × V)` whose keys are kept `Nodup` by the operations
  (iteration order of the C++ map is unspecified; the claims settled here
  do not depend on it).
* `std::chrono::system_clock::time_point` values become integers counting
  hours (the source only ever inspects time points through
  `duration_cast<std::chrono::hours>` of differences); every operation
  that calls `system_clock::now()` takes the current time as an explicit
  `now : ℤ` argument.
* `double` fields that are merely stored and compared (importance,
  relationship strength) become `ℚ`; the transcendental score formulas
  (`std::log1p`) are idealised over `ℝ` with `Real.log`.
* `size_t to_remove = count - capacity * 0.9` (a `double` computation
  truncated to `size_t`) becomes `(⌊(count : ℚ) - (capacity : ℚ) * (9/10)⌋).toNat`;
  for every capacity small enough that `capacity * 0.9` is exactly
  representable as a `double` rounding of the real product (all realistic
  capacities), the two agree.
-/

namespace Gloom

/-- `std::log1p`: natural logarithm of `1 + x`. -/
noncomputable def log1p (x : ℝ) : ℝ := Real.log (1 + x)

/-- `std::string::find(pat) != npos` on `List Char`, by scanning suffixes. -/
def containsSub (pat : List Char) : List Char → Bool
  | [] => List.isPrefixOf pat []
  | c :: rest => List.isPrefixOf pat (c :: rest) || containsSub pat rest

/-- `hay.find(pat) != std::string::npos`. -/
def strContains (hay pat : String) : Bool := containsSub pat.data hay.data

section AssocList

variable {α : Type} {β : Type} [BEq α]

/-- Lookup in an `unordered_map` modelled as an association list
(`find(k)` dereferenced to the mapped value). -/
def lookup (l : List (α × β)) (k : α) : Option β :=
  (l.find? (fun e => e.1 == k)).map Prod.snd

/-- `map[k] = v`: replace the mapped value if the key is present, insert
otherwise. -/
def setKey (l : List (α × β)) (k : α) (v : β) : List (α × β) :=
  if l.any (fun e => e.1 == k) then
    l.map (fun e => if e.1 == k then (k, v) else e)
  else l ++ [(k, v)]

/-- `map.emplace(k, v)`: insert only when the key is absent (the existing
entry is kept untouched on a hit). -/
def emplaceKey (l : List (α × β)) (k : α) (v : β) : List (α × β) :=
  if l.any (fun e => e.1 == k) then l else l ++ [(k, v)]

/-- Replace the mapped value at key `k` by `f` applied to it (in-place
mutation through an iterator / reference in the source). -/
def mapAtKey (l : List (α × β)) (k : α) (f : β → β) : List (α × β) :=
  l.map (fun e => if e.1 == k then (e.1, f e.2) else e)

/-- The erase loop of the prune routines: drop every entry whose key is
listed in `R`. -/
def removeKeys (l : List (α × β)) (R : List α) : List (α × β) :=
  l.filter (fun e => !(R.contains e.1))

/-- The selection step shared by the three prune routines: sort the
`(key, score)` pairs ascending by score (`std::sort` with `a.second <
b.second`) and take the keys of the first `k` entries. -/
noncomputable def lowestScoringKeys (scores : List (α × ℝ)) (k : ℕ) : List α :=
  ((scores.mergeSort (fun a b => decide (a.2 ≤ b.2))).take k).map Prod.fst

end AssocList

/-- `size_t to_remove = count - capacity * 0.9;` — the `double` expression
truncated to `size_t` (exact-rational idealisation of the double rounding;
negative values truncate to `0`, matching the only defined-behaviour uses
in the source, which are all at `count ≥ capacity`). -/
def pruneCount (count capacity : ℕ) : ℕ :=
  (⌊(count : ℚ) - (capacity : ℚ) * (9 / 10)⌋).toNat

/-- `gloom::memory::Memory` (declared in the `gloom/memory/memory_store.hpp`
header, which is not in the tree; fields as read and written by
`memory_store.cpp` and `episodic.cpp` and as listed in spec §3 —
the unused embedding vector is omitted). -/
structure Memory where
  id : String
  content : String
  tags : List String
  metadata : List (String × String)
  timestamp : ℤ
  last_accessed : ℤ
  last_modified : ℤ
  access_count : ℕ
  importance : ℚ
  deriving DecidableEq

/-- `gloom::memory::Query` as read by `MemoryStore::matches_query`. -/
structure Query where
  content : String
  tags : List String
  start_time : Option ℤ
  end_time : Option ℤ
  deriving DecidableEq

/-- `gloom::memory::MemoryUpdate` as read by `MemoryStore::update`. -/
structure MemoryUpdate where
  content : Option String
  tags : Option (List String)
  metadata : Option (List (String × String))
  deriving DecidableEq

/-- `MemoryStore` state: `Impl::memories` and `Impl::capacity`. -/
structure MemoryStore where
  memories : List (String × Memory)
  capacity : ℕ

namespace MemoryStore

/-- A store as built by `MemoryStore::MemoryStore(size_t capacity)`. -/
def init (capacity : ℕ) : MemoryStore := ⟨[], capacity⟩

/-- `MemoryStore::calculate_relevance` (the `now` taken inside the
function is passed explicitly). -/
noncomputable def calculate_relevance (m : Memory) (now : ℤ) : ℝ :=
  let age : ℤ := now - m.timestamp
  let recency_score : ℝ := 1 / (1 + log1p age)
  let access_score : ℝ := log1p m.access_count
  let importance_score : ℝ := (m.importance : ℝ)
  recency_score * 0.4 + access_score * 0.3 + importance_score * 0.3

/-- `MemoryStore::calculate_retention_score`. -/
noncomputable def calculate_retention_score (m : Memory) (now : ℤ) : ℝ :=
  let age : ℤ := now - m.timestamp
  let last_access : ℤ := now - m.last_accessed
  let age_score : ℝ := 1 / (1 + log1p age)
  let access_recency_score : ℝ := 1 / (1 + log1p last_access)
  let access_frequency_score : ℝ := log1p m.access_count
  let importance_score : ℝ := (m.importance : ℝ)
  age_score * 0.2 + access_recency_score * 0.3 +
    access_frequency_score * 0.2 + importance_score * 0.3

/-- `MemoryStore::matches_query`. -/
def matches_query (m : Memory) (q : Query) : Bool :=
  if !q.content.isEmpty && !(strContains m.content q.content) then false
  else if !q.tags.isEmpty && !(q.tags.any (fun t => m.tags.contains t)) then false
  else if q.start_time.any (fun s => decide (m.timestamp < s)) then false
  else if q.end_time.any (fun e => decide (m.timestamp > e)) then false
  else true

/-- `MemoryStore::prune`. -/
noncomputable def prune (s : MemoryStore) (now : ℤ) : MemoryStore :=
  if s.memories.length < s.capacity then s
  else
    let scores := s.memories.map (fun e => (e.1, calculate_retention_score e.2 now))
    let to_remove := pruneCount s.memories.length s.capacity
    { s with memories := removeKeys s.memories (lowestScoringKeys scores to_remove) }

/-- `MemoryStore::store`. -/
noncomputable def store (s : MemoryStore) (memory : Memory) (now : ℤ) : MemoryStore :=
  let s := if s.memories.length ≥ s.capacity then s.prune now else s
  let mem := { memory with timestamp := now, last_accessed := now }
  { s with memories := setKey s.memories mem.id mem }

/-- `MemoryStore::retrieve`: on a hit the stored entry is bumped and the
bumped entry is returned (a copy of `it->second` after the increment). -/
def retrieve (s : MemoryStore) (id : String) (now : ℤ) : MemoryStore × Option Memory :=
  match lookup s.memories id with
  | none => (s, none)
  | some m =>
    let m' := { m with last_accessed := now, access_count := m.access_count + 1 }
    ({ s with memories := mapAtKey s.memories id (fun _ => m') }, some m')

/-- `MemoryStore::search`: collect matching copies, sort them descending by
relevance, truncate to `limit`, and only then bump the stored entries of
the returned ids (the returned copies are the pre-bump ones). -/
noncomputable def search (s : MemoryStore) (q : Query) (limit : ℕ) (now : ℤ) :
    MemoryStore × List Memory :=
  let results := (s.memories.filter (fun e => matches_query e.2 q)).map Prod.snd
  let sorted := results.mergeSort
    (fun a b => decide (calculate_relevance b now ≤ calculate_relevance a now))
  let limited := if limit > 0 ∧ sorted.length > limit then sorted.take limit else sorted
  let memories' := limited.foldl
    (fun acc r => mapAtKey acc r.id
      (fun m => { m with last_accessed := now, access_count := m.access_count + 1 })) s.memories
  ({ s with memories := memories' }, limited)

/-- `MemoryStore::update`. -/
def update (s : MemoryStore) (id : String) (u : MemoryUpdate) (now : ℤ) :
    MemoryStore × Bool :=
  match lookup s.memories id with
  | none => (s, false)
  | some m =>
    let m' := { m with
      content := u.content.getD m.content
      tags := u.tags.getD m.tags
      metadata := u.metadata.getD m.metadata
      last_modified := now }
    ({ s with memories := mapAtKey s.memories id (fun _ => m') }, true)

/-- `MemoryStore::remove`. -/
def remove (s : MemoryStore) (id : String) : MemoryStore × Bool :=
  (⟨s.memories.filter (fun e => !(e.1 == id)), s.capacity⟩,
   s.memories.any (fun e => e.1 == id))

/-- `MemoryStore::clear`. -/
def clear (s : MemoryStore) : MemoryStore := { s with memories := [] }

/-- `MemoryStore::size`. -/
def size (s : MemoryStore) : ℕ := s.memories.length

end MemoryStore

/-- `EpisodicMemory::Impl::Episode`. The constructor takes the id, stamps
`timestamp` with `now` and initialises `last_accessed` to the same value,
`importance` to `0.0` and `access_count` to `0`. -/
structure Episode where
  id : String
  timestamp : ℤ
  memories : List Memory
  context : List (String × String)
  importance : ℝ
  access_count : ℕ
  last_accessed : ℤ

/-- `gloom::memory::EpisodeQuery` as read by `EpisodicMemory::matches_query`. -/
structure EpisodeQuery where
  start_time : Option ℤ
  end_time : Option ℤ
  context : List (String × String)
  content : String

/-- `EpisodicMemory` state: `Impl::episodes`, the two capacities, and the
static atomic id counter of `generate_id`. -/
structure EpisodicMemory where
  episodes : List (String × Episode)
  capacity : ℕ
  max_memories_per_episode : ℕ
  counter : ℕ

namespace EpisodicMemory

/-- A store as built by
`EpisodicMemory::EpisodicMemory(max_episodes, max_memories_per_episode)`
(with the id counter at a given start value). -/
def init (max_episodes max_memories : ℕ) : EpisodicMemory :=
  ⟨[], max_episodes, max_memories, 0⟩

/-- `EpisodicMemory::calculate_memory_importance`:
`importance * (1.0 + log1p(access_count))`. -/
noncomputable def calculate_memory_importance (m : Memory) : ℝ :=
  (m.importance : ℝ) * (1 + log1p m.access_count)

/-- `EpisodicMemory::calculate_relevance` (episode-level; weights
0.3 / 0.3 / 0.4). The `query` parameter is unused by the body, as in the
source. -/
noncomputable def calculate_relevance (ep : Episode) (_q : EpisodeQuery) (now : ℤ) : ℝ :=
  let age : ℤ := now - ep.timestamp
  let recency_score : ℝ := 1 / (1 + log1p age)
  let access_score : ℝ := log1p ep.access_count
  let importance_score : ℝ := ep.importance
  recency_score * 0.3 + access_score * 0.3 + importance_score * 0.4

/-- `EpisodicMemory::calculate_retention_score` (episode-level; weights
0.2 / 0.3 / 0.2 / 0.3). -/
noncomputable def calculate_retention_score (ep : Episode) (now : ℤ) : ℝ :=
  let age : ℤ := now - ep.timestamp
  let last_access : ℤ := now - ep.last_accessed
  let age_score : ℝ := 1 / (1 + log1p age)
  let access_recency_score : ℝ := 1 / (1 + log1p last_access)
  let access_frequency_score : ℝ := log1p ep.access_count
  let importance_score : ℝ := ep.importance
  age_score * 0.2 + access_recency_score * 0.3 +
    access_frequency_score * 0.2 + importance_score * 0.3

/-- `EpisodicMemory::update_episode_importance`: the aggregate importance
becomes `total / (memories.empty() ? 1.0 : memories.size())`. -/
noncomputable def update_episode_importance (ep : Episode) : Episode :=
  let total := (ep.memories.map calculate_memory_importance).sum
  { ep with importance :=
      total / (if ep.memories.isEmpty then (1 : ℝ) else (ep.memories.length : ℝ)) }

/-- `EpisodicMemory::prune_memories`: score each memory by
`calculate_memory_importance`, sort index/score pairs ascending, and retain
(in original order) the memories whose index is not among the first
`to_remove` of the sorted order. -/
noncomputable def prune_memories (max_memories_per_episode : ℕ) (ep : Episode) : Episode :=
  let scores := ep.memories.enum.map (fun e => (e.1, calculate_memory_importance e.2))
  let to_remove := pruneCount ep.memories.length max_memories_per_episode
  { ep with memories :=
      (removeKeys ep.memories.enum (lowestScoringKeys scores to_remove)).map Prod.snd }

/-- `EpisodicMemory::prune_episodes` (no size guard of its own; the source
only calls it from `create_episode` when `size ≥ capacity`). -/
noncomputable def prune_episodes (s : EpisodicMemory) (now : ℤ) : EpisodicMemory :=
  let scores := s.episodes.map (fun e => (e.1, calculate_retention_score e.2 now))
  let to_remove := pruneCount s.episodes.length s.capacity
  { s with episodes := removeKeys s.episodes (lowestScoringKeys scores to_remove) }

/-- `EpisodicMemory::generate_id`: `"ep_" + std::to_string(++counter)`. -/
def generate_id (counter : ℕ) : String := "ep_" ++ toString (counter + 1)

/-- `EpisodicMemory::create_episode`: prune when at episode capacity, then
`emplace` a fresh `Episode` under a generated id and assign its context. -/
noncomputable def create_episode (s : EpisodicMemory)
    (context : List (String × String)) (now : ℤ) : EpisodicMemory × String :=
  let s := if s.episodes.length ≥ s.capacity then s.prune_episodes now else s
  let counter := s.counter + 1
  let id := generate_id s.counter
  let episodes := emplaceKey s.episodes id
    ⟨id, now, [], [], 0, 0, now⟩
  let episodes := mapAtKey episodes id (fun ep => { ep with context := context })
  ({ s with episodes := episodes, counter := counter }, id)

/-- `EpisodicMemory::add_memory`: `false` on an unknown episode id;
otherwise prune within the episode when at per-episode capacity, append the
record as given (no timestamp rewriting), and recompute the aggregate
importance. -/
noncomputable def add_memory (s : EpisodicMemory) (episode_id : String)
    (memory : Memory) : EpisodicMemory × Bool :=
  match lookup s.episodes episode_id with
  | none => (s, false)
  | some ep =>
    let ep := if ep.memories.length ≥ s.max_memories_per_episode then
        prune_memories s.max_memories_per_episode ep else ep
    let ep := { ep with memories := ep.memories ++ [memory] }
    let ep := update_episode_importance ep
    ({ s with episodes := mapAtKey s.episodes episode_id (fun _ => ep) }, true)

/-- `EpisodicMemory::recall_episode`: on a hit, bump `last_accessed` and
`access_count` of the episode and return its memories. -/
def recall_episode (s : EpisodicMemory) (episode_id : String) (now : ℤ) :
    EpisodicMemory × Option (List Memory) :=
  match lookup s.episodes episode_id with
  | none => (s, none)
  | some ep =>
    let bump := fun (e : Episode) =>
      { e with last_accessed := now, access_count := e.access_count + 1 }
    ({ s with episodes := mapAtKey s.episodes episode_id bump }, some ep.memories)

/-- `EpisodicMemory::matches_query`. -/
def matches_query (ep : Episode) (q : EpisodeQuery) : Bool :=
  if q.start_time.any (fun s => decide (ep.timestamp < s)) then false
  else if q.end_time.any (fun e => decide (ep.timestamp > e)) then false
  else if !(q.context.all (fun kv => lookup ep.context kv.1 == some kv.2)) then false
  else if !q.content.isEmpty && !(ep.memories.any (fun m => strContains m.content q.content))
    then false
  else true

/-- The sort key of `EpisodicMemory::search`: the comparator re-reads the
episode from the map (`pimpl->episodes.at(a.first)`) and ranks by
`calculate_relevance`. -/
noncomputable def relevance_of (s : EpisodicMemory) (q : EpisodeQuery) (now : ℤ)
    (p : String × List Memory) : ℝ :=
  match lookup s.episodes p.1 with
  | some ep => calculate_relevance ep q now
  | none => 0

/-- `EpisodicMemory::search`: taken under a `shared_lock`, the body only
reads — it collects `(id, memories)` pairs of matching episodes, sorts them
descending by episode relevance, truncates, and returns without any access
bookkeeping. The state component of the result is the unchanged store. -/
noncomputable def search (s : EpisodicMemory) (q : EpisodeQuery) (limit : ℕ) (now : ℤ) :
    EpisodicMemory × List (String × List Memory) :=
  let results := (s.episodes.filter (fun e => matches_query e.2 q)).map
    (fun e => (e.1, e.2.memories))
  let sorted := results.mergeSort
    (fun a b => decide (relevance_of s q now b ≤ relevance_of s q now a))
  let limited := if limit > 0 ∧ sorted.length > limit then sorted.take limit else sorted
  (s, limited)

end EpisodicMemory

/-- `SemanticMemory::Impl::Node`. -/
structure Node where
  id : String
  concept : String
  attributes : List (String × String)
  relationships : List (String × ℚ)
  importance : ℚ
  access_count : ℕ
  created : ℤ
  last_accessed : ℤ
  deriving DecidableEq

/-- `gloom::memory::SemanticNode`, the caller-facing view produced by
`convert_to_semantic_node` (relationships, counters and timestamps are
dropped). -/
structure SemanticNode where
  id : String
  concept : String
  attributes : List (String × String)
  importance : ℚ
  deriving DecidableEq

/-- `gloom::memory::SemanticQuery` as read by `SemanticMemory::matches_query`. -/
structure SemanticQuery where
  concept : String
  attributes : List (String × String)
  deriving DecidableEq

/-- `SemanticMemory` state: `Impl::nodes`, `Impl::capacity`, and the static
atomic id counter of `generate_id`. -/
structure SemanticMemory where
  nodes : List (String × Node)
  capacity : ℕ
  counter : ℕ

namespace SemanticMemory

/-- A store as built by `SemanticMemory::SemanticMemory(size_t capacity)`. -/
def init (capacity : ℕ) : SemanticMemory := ⟨[], capacity, 0⟩

/-- `SemanticMemory::convert_to_semantic_node`. -/
def convert_to_semantic_node (n : Node) : SemanticNode :=
  ⟨n.id, n.concept, n.attributes, n.importance⟩

/-- `SemanticMemory::calculate_relevance` (weights 0.2 / 0.2 / 0.4 / 0.2,
the last over `log1p(relationship_count)`). The `query` parameter is unused
by the body, as in the source. -/
noncomputable def calculate_relevance (n : Node) (_q : SemanticQuery) (now : ℤ) : ℝ :=
  let age : ℤ := now - n.created
  let recency_score : ℝ := 1 / (1 + log1p age)
  let access_score : ℝ := log1p n.access_count
  let importance_score : ℝ := (n.importance : ℝ)
  let relationship_score : ℝ := log1p n.relationships.length
  recency_score * 0.2 + access_score * 0.2 +
    importance_score * 0.4 + relationship_score * 0.2

/-- `SemanticMemory::calculate_retention_score`
(weights 0.15 / 0.25 / 0.2 / 0.25 / 0.15). -/
noncomputable def calculate_retention_score (n : Node) (now : ℤ) : ℝ :=
  let age : ℤ := now - n.created
  let last_access : ℤ := now - n.last_accessed
  let age_score : ℝ := 1 / (1 + log1p age)
  let access_recency_score : ℝ := 1 / (1 + log1p last_access)
  let access_frequency_score : ℝ := log1p n.access_count
  let importance_score : ℝ := (n.importance : ℝ)
  let connectivity_score : ℝ := log1p n.relationships.length
  age_score * 0.15 + access_recency_score * 0.25 + access_frequency_score * 0.2 +
    importance_score * 0.25 + connectivity_score * 0.15

/-- `SemanticMemory::prune_nodes` (no size guard of its own; the source only
calls it from `create_node` when `size ≥ capacity`). -/
noncomputable def prune_nodes (s : SemanticMemory) (now : ℤ) : SemanticMemory :=
  let scores := s.nodes.map (fun e => (e.1, calculate_retention_score e.2 now))
  let to_remove := pruneCount s.nodes.length s.capacity
  { s with nodes := removeKeys s.nodes (lowestScoringKeys scores to_remove) }

/-- `SemanticMemory::generate_id`: `"sem_" + std::to_string(++counter)`. -/
def generate_id (counter : ℕ) : String := "sem_" ++ toString (counter + 1)

/-- `SemanticMemory::create_node`. -/
noncomputable def create_node (s : SemanticMemory) (concept : String)
    (attributes : List (String × String)) (now : ℤ) : SemanticMemory × String :=
  let s := if s.nodes.length ≥ s.capacity then s.prune_nodes now else s
  let counter := s.counter + 1
  let id := generate_id s.counter
  let nodes := emplaceKey s.nodes id ⟨id, concept, [], [], 0, 0, now, now⟩
  let nodes := mapAtKey nodes id (fun n => { n with attributes := attributes })
  ({ s with nodes := nodes, counter := counter }, id)

/-- `SemanticMemory::add_relationship`: `false` when either id is unknown;
otherwise overwrite the strength of an existing `from → to` edge or append
a new one. The `strength` argument is stored as given — the body performs
no validation of it. -/
def add_relationship (s : SemanticMemory) (from_id to_id : String)
    (strength : ℚ) : SemanticMemory × Bool :=
  match lookup s.nodes from_id, lookup s.nodes to_id with
  | some fromNode, some _ =>
    let relationships :=
      if fromNode.relationships.any (fun rel => rel.1 == to_id) then
        fromNode.relationships.map
          (fun rel => if rel.1 == to_id then (rel.1, strength) else rel)
      else fromNode.relationships ++ [(to_id, strength)]
    let upd := fun (n : Node) => { n with relationships := relationships }
    ({ s with nodes := mapAtKey s.nodes from_id upd }, true)
  | _, _ => (s, false)

/-- `SemanticMemory::get_node`: bump access bookkeeping on a hit and return
the converted view of the bumped node. -/
def get_node (s : SemanticMemory) (id : String) (now : ℤ) :
    SemanticMemory × Option SemanticNode :=
  match lookup s.nodes id with
  | none => (s, none)
  | some n =>
    let n' := { n with last_accessed := now, access_count := n.access_count + 1 }
    ({ s with nodes := mapAtKey s.nodes id (fun _ => n') },
     some (convert_to_semantic_node n'))

/-- `SemanticMemory::matches_query`. -/
def matches_query (n : Node) (q : SemanticQuery) : Bool :=
  if !q.concept.isEmpty && !(n.concept == q.concept) then false
  else if !(q.attributes.all (fun kv => lookup n.attributes kv.1 == some kv.2)) then false
  else true

/-- The sort key of `SemanticMemory::search`: the comparator re-reads the
node from the map (`pimpl->nodes.at(a.id)`). -/
noncomputable def relevance_of (s : SemanticMemory) (q : SemanticQuery) (now : ℤ)
    (r : SemanticNode) : ℝ :=
  match lookup s.nodes r.id with
  | some n => calculate_relevance n q now
  | none => 0

/-- `SemanticMemory::search`: collect converted copies of matching nodes,
sort descending by relevance, truncate, then bump the stored entries of the
returned ids. -/
noncomputable def search (s : SemanticMemory) (q : SemanticQuery) (limit : ℕ) (now : ℤ) :
    SemanticMemory × List SemanticNode :=
  let results := (s.nodes.filter (fun e => matches_query e.2 q)).map
    (fun e => convert_to_semantic_node e.2)
  let sorted := results.mergeSort
    (fun a b => decide (relevance_of s q now b ≤ relevance_of s q now a))
  let limited := if limit > 0 ∧ sorted.length > limit then sorted.take limit else sorted
  let nodes' := limited.foldl
    (fun acc r => mapAtKey acc r.id
      (fun n => { n with last_accessed := now, access_count := n.access_count + 1 })) s.nodes
  ({ s with nodes := nodes' }, limited)

/-- The `find_strength` helper closed over by the comparator of
`SemanticMemory::get_related_nodes` (edge strength of `id → rel_id`,
`0.0` when absent). -/
def find_strength (n : Node) (rel_id : String) : ℚ :=
  match n.relationships.find? (fun rel => rel.1 == rel_id) with
  | some rel => rel.2
  | none => 0

/-- `SemanticMemory::get_related_nodes`: neighbours over edges of strength
`≥ min_strength`, dangling edges silently skipped, sorted by edge strength
descending, truncated to `limit`; no access bookkeeping (shared lock). -/
def get_related_nodes (s : SemanticMemory) (id : String) (min_strength : ℚ)
    (limit : ℕ) : SemanticMemory × List SemanticNode :=
  match lookup s.nodes id with
  | none => (s, [])
  | some n =>
    let related := (n.relationships.filter (fun rel => decide (rel.2 ≥ min_strength))).filterMap
      (fun rel => (lookup s.nodes rel.1).map convert_to_semantic_node)
    let sorted := related.mergeSort
      (fun a b : SemanticNode => decide (find_strength n b.id ≤ find_strength n a.id))
    let limited := if limit > 0 ∧ sorted.length > limit then sorted.take limit else sorted
    (s, limited)

/-- `SemanticMemory::update_node_importance`: clamp to `[0,1]` before
storing; no-op on an unknown id. -/
def update_node_importance (s : SemanticMemory) (id : String) (importance : ℚ) :
    SemanticMemory :=
  match lookup s.nodes id with
  | none => s
  | some _ =>
    let clamped := if importance < 0 then 0 else if 1 < importance then 1 else importance
    { s with nodes := mapAtKey s.nodes id (fun n => { n with importance := clamped }) }

end SemanticMemory

/-! ### Helper lemmas about the association-list primitives -/

section AssocLemmas

variable {α : Type} {β : Type} [BEq α] [LawfulBEq α]

theorem setKey_cons_of_ne (e : α × β) (l : List (α × β)) (k : α) (v : β)
    (h : (e.1 == k) = false) : setKey (e :: l) k v = e :: setKey l k v := by
  simp only [setKey, List.any_cons, h, Bool.false_or]
  by_cases ht : l.any (fun e => e.1 == k)
  · simp [ht, h]
  · simp [ht, h]

theorem lookup_setKey_self (l : List (α × β)) (k : α) (v : β) :
    lookup (setKey l k v) k = some v := by
  induction l with
  | nil => simp [setKey, lookup]
  | cons e t ih =>
    by_cases h : (e.1 == k) = true
    · have hany : (e :: t).any (fun e => e.1 == k) = true := by
        simp [List.any_cons, h]
      simp [setKey, hany, lookup, h]
    · rw [setKey_cons_of_ne e t k v (by simpa using h)]
      simpa [lookup, List.find?_cons, h] using ih

theorem length_setKey_le (l : List (α × β)) (k : α) (v : β) :
    (setKey l k v).length ≤ l.length + 1 := by
  unfold setKey
  by_cases h : l.any (fun e => e.1 == k) <;> simp [h]

theorem map_fst_setKey_of_any (l : List (α × β)) (k : α) (v : β)
    (h : l.any (fun e => e.1 == k) = true) :
    (setKey l k v).map Prod.fst = l.map Prod.fst := by
  unfold setKey
  rw [if_pos h, List.map_map]
  apply List.map_congr_left
  intro e _
  by_cases he : (e.1 == k) = true
  · simp [he, (eq_of_beq he).symm]
  · simp [he]

theorem nodup_map_fst_setKey (l : List (α × β)) (k : α) (v : β)
    (h : (l.map Prod.fst).Nodup) : ((setKey l k v).map Prod.fst).Nodup := by
  by_cases hany : l.any (fun e => e.1 == k) = true
  · rwa [map_fst_setKey_of_any l k v hany]
  · unfold setKey
    rw [if_neg hany]
    rw [List.map_append]
    simp only [List.map_cons, List.map_nil]
    rw [List.nodup_append]
    refine ⟨h, List.nodup_singleton k, ?_⟩
    intro a ha hk
    simp only [List.mem_singleton] at hk
    subst hk
    simp only [List.mem_map] at ha
    obtain ⟨e, he, rfl⟩ := ha
    simp only [List.any_eq_true, not_exists, not_and] at hany
    exact absurd (beq_self_eq_true e.1) (by simpa using hany e he)

theorem length_emplaceKey_le (l : List (α × β)) (k : α) (v : β) :
    (emplaceKey l k v).length ≤ l.length + 1 := by
  unfold emplaceKey
  by_cases h : l.any (fun e => e.1 == k) <;> simp [h]

theorem nodup_map_fst_emplaceKey (l : List (α × β)) (k : α) (v : β)
    (h : (l.map Prod.fst).Nodup) : ((emplaceKey l k v).map Prod.fst).Nodup := by
  unfold emplaceKey
  by_cases hany : l.any (fun e => e.1 == k) = true
  · simpa [hany] using h
  · rw [if_neg hany, List.map_append]
    simp only [List.map_cons, List.map_nil]
    rw [List.nodup_append]
    refine ⟨h, List.nodup_singleton k, ?_⟩
    intro a ha hk
    simp only [List.mem_singleton] at hk
    subst hk
    simp only [List.mem_map] at ha
    obtain ⟨e, he, rfl⟩ := ha
    simp only [List.any_eq_true, not_exists, not_and] at hany
    exact absurd (beq_self_eq_true e.1) (by simpa using hany e he)

theorem map_fst_mapAtKey (l : List (α × β)) (k : α) (f : β → β) :
    (mapAtKey l k f).map Prod.fst = l.map Prod.fst := by
  unfold mapAtKey
  rw [List.map_map]
  apply List.map_congr_left
  intro e _
  by_cases he : (e.1 == k) = true <;> simp [he]

theorem length_mapAtKey (l : List (α × β)) (k : α) (f : β → β) :
    (mapAtKey l k f).length = l.length := by
  simp [mapAtKey]

theorem mem_mapAtKey (l : List (α × β)) (k : α) (f : β → β) (e' : α × β)
    (h : e' ∈ mapAtKey l k f) :
    ∃ e ∈ l, e' = e ∨ e' = (e.1, f e.2) := by
  unfold mapAtKey at h
  rw [List.mem_map] at h
  obtain ⟨e, he, rfl⟩ := h
  refine ⟨e, he, ?_⟩
  by_cases hk : (e.1 == k) = true <;> simp [hk]

theorem mem_removeKeys (l : List (α × β)) (R : List α) (e : α × β)
    (h : e ∈ removeKeys l R) : e ∈ l ∧ R.contains e.1 = false := by
  unfold removeKeys at h
  rw [List.mem_filter] at h
  simpa using h

theorem map_fst_filter_ne (l : List (α × β)) (r : α) :
    ((l.filter (fun e => !(e.1 == r))).map Prod.fst) =
      (l.map Prod.fst).filter (fun a => !(a == r)) := by
  induction l with
  | nil => simp
  | cons e t ih =>
    by_cases hp : (e.1 == r) = true <;> simp [List.filter_cons, hp, ih]

theorem length_filter_key_ne (l : List (α × β)) (k : α)
    (hnd : (l.map Prod.fst).Nodup) (hmem : k ∈ l.map Prod.fst) :
    (l.filter (fun e => !(e.1 == k))).length = l.length - 1 := by
  induction l with
  | nil => cases hmem
  | cons e t ih =>
    rw [List.map_cons, List.nodup_cons] at hnd
    by_cases hek : (e.1 == k) = true
    · have hkt : k ∉ t.map Prod.fst := (eq_of_beq hek) ▸ hnd.1
      have hfix : t.filter (fun x => !(x.1 == k)) = t := by
        apply List.filter_eq_self.mpr
        intro x hx
        have : x.1 ≠ k := fun hxk => hkt (hxk ▸ List.mem_map_of_mem Prod.fst hx)
        simpa using this
      simp [List.filter_cons, hek, hfix]
    · have hkt : k ∈ t.map Prod.fst := by
        rw [List.map_cons] at hmem
        rcases List.mem_cons.mp hmem with h | h
        · exact absurd (by rw [h]; exact beq_self_eq_true e.1) hek
        · exact h
      have hlen : 1 ≤ t.length := by
        rcases List.mem_map.mp hkt with ⟨x, hx, _⟩
        exact List.length_pos.mpr (List.ne_nil_of_mem hx)
      rw [List.filter_cons, if_pos (by simpa using hek)]
      simp only [List.length_cons]
      rw [ih hnd.2 hkt]
      omega

theorem length_removeKeys (l : List (α × β)) (R : List α)
    (hnd : (l.map Prod.fst).Nodup) (hR : R.Nodup)
    (hsub : ∀ a ∈ R, a ∈ l.map Prod.fst) :
    (removeKeys l R).length = l.length - R.length := by
  induction R generalizing l with
  | nil => simp [removeKeys]
  | cons r R' ih =>
    have hsplit : removeKeys l (r :: R') =
        removeKeys (l.filter (fun e => !(e.1 == r))) R' := by
      unfold removeKeys
      rw [List.filter_filter]
      apply List.filter_congr
      intro e _
      show (!(r :: R').contains e.1) = (!(R'.contains e.1) && !(e.1 == r))
      show (!(List.elem e.1 (r :: R'))) = (!(R'.contains e.1) && !(e.1 == r))
      rw [List.elem_cons]
      by_cases he : (e.1 == r) = true <;> simp [he, List.contains, Bool.and_comm]
    rw [hsplit]
    have hrl : r ∈ l.map Prod.fst := hsub r (List.mem_cons_self r R')
    have hnd' : ((l.filter (fun e => !(e.1 == r))).map Prod.fst).Nodup := by
      rw [map_fst_filter_ne]
      exact List.Nodup.filter _ hnd
    have hsub' : ∀ a ∈ R', a ∈ (l.filter (fun e => !(e.1 == r))).map Prod.fst := by
      intro a ha
      rw [map_fst_filter_ne, List.mem_filter]
      refine ⟨hsub a (List.mem_cons_of_mem r ha), ?_⟩
      have hne : a ≠ r := by
        rintro rfl
        exact (List.nodup_cons.mp hR).1 ha
      simpa using hne
    rw [ih _ hnd' (List.nodup_cons.mp hR).2 hsub']
    rw [length_filter_key_ne l r hnd hrl]
    simp only [List.length_cons]
    omega

end AssocLemmas

/-! ### Helper lemmas about the prune selection -/

section PruneLemmas

variable {α : Type} {β : Type} [BEq α] [LawfulBEq α]

theorem scoreCmp_trans : ∀ a b c : α × ℝ,
    decide (a.2 ≤ b.2) = true → decide (b.2 ≤ c.2) = true → decide (a.2 ≤ c.2) = true := by
  intro a b c hab hbc
  simp only [decide_eq_true_eq] at *
  exact le_trans hab hbc

theorem scoreCmp_total : ∀ a b : α × ℝ,
    (decide (a.2 ≤ b.2) || decide (b.2 ≤ a.2)) = true := by
  intro a b
  simpa using le_total a.2 b.2

theorem nodup_map_fst_mergeSortScores (scores : List (α × ℝ))
    (hnd : (scores.map Prod.fst).Nodup) :
    ((scores.mergeSort (fun a b => decide (a.2 ≤ b.2))).map Prod.fst).Nodup :=
  (((List.mergeSort_perm scores _).map Prod.fst).symm).nodup hnd

theorem nodup_lowestScoringKeys (scores : List (α × ℝ)) (k : ℕ)
    (hnd : (scores.map Prod.fst).Nodup) : (lowestScoringKeys scores k).Nodup := by
  unfold lowestScoringKeys
  exact ((List.take_sublist k _).map Prod.fst).nodup
    (nodup_map_fst_mergeSortScores scores hnd)

theorem lowestScoringKeys_subset (scores : List (α × ℝ)) (k : ℕ) :
    ∀ a ∈ lowestScoringKeys scores k, a ∈ scores.map Prod.fst := by
  intro a ha
  unfold lowestScoringKeys at ha
  rw [List.mem_map] at ha
  obtain ⟨p, hp, rfl⟩ := ha
  have hp' : p ∈ scores.mergeSort (fun a b => decide (a.2 ≤ b.2)) :=
    (List.take_sublist k _).mem hp
  exact List.mem_map_of_mem Prod.fst ((List.mergeSort_perm scores _).mem_iff.mp hp')

theorem length_lowestScoringKeys (scores : List (α × ℝ)) (k : ℕ)
    (hk : k ≤ scores.length) : (lowestScoringKeys scores k).length = k := by
  unfold lowestScoringKeys
  rw [List.length_map, List.length_take,
    (List.mergeSort_perm scores _).length_eq]
  omega

/-- Entries of an association list whose key is uniquely determined:
with `Nodup` keys, an entry is determined by its key. -/
theorem eq_of_mem_of_fst_eq (l : List (α × β)) (hnd : (l.map Prod.fst).Nodup)
    (e e' : α × β) (he : e ∈ l) (he' : e' ∈ l) (hfst : e.1 = e'.1) : e = e' := by
  induction l with
  | nil => cases he
  | cons a t ih =>
    rw [List.map_cons, List.nodup_cons] at hnd
    rcases List.mem_cons.mp he with rfl | he <;>
      rcases List.mem_cons.mp he' with h' | he'
    · exact h' ▸ rfl
    · exact absurd (hfst ▸ List.mem_map_of_mem Prod.fst he') hnd.1
    · exact absurd (hfst ▸ List.mem_map_of_mem Prod.fst he) (h' ▸ hnd.1)
    · exact ih hnd.2 he he'

/-- The dominance property of the shared prune selection: every entry whose
key is selected for removal scores no higher than every surviving entry. -/
theorem removeKeys_lowest_dominance (l : List (α × β)) (f : β → ℝ) (k : ℕ)
    (hnd : (l.map Prod.fst).Nodup) :
    ∀ e ∈ l, e.1 ∈ lowestScoringKeys (l.map (fun e => (e.1, f e.2))) k →
    ∀ e' ∈ removeKeys l (lowestScoringKeys (l.map (fun e => (e.1, f e.2))) k),
    f e.2 ≤ f e'.2 := by
  intro e he hkey e' he'
  set scores := l.map (fun e => (e.1, f e.2)) with hscores
  set sorted := scores.mergeSort (fun a b => decide (a.2 ≤ b.2)) with hsorted
  have hperm : sorted.Perm scores := List.mergeSort_perm scores _
  have hndscores : (scores.map Prod.fst).Nodup := by
    rw [hscores, List.map_map]
    simpa using hnd
  have hndsorted : (sorted.map Prod.fst).Nodup := ((hperm.map Prod.fst).symm).nodup hndscores
  have hsortedPairwise : List.Sorted (fun a b : α × ℝ => a.2 ≤ b.2) sorted := by
    have hs := List.sorted_mergeSort scoreCmp_trans scoreCmp_total scores
    exact hs.imp (by intro a b h; exact of_decide_eq_true h)
  -- the pair of the removed entry sits in `take k sorted`
  obtain ⟨p, hp, hpfst⟩ := by
    have := hkey
    unfold lowestScoringKeys at this
    rw [List.mem_map] at this
    exact this
  have hpscores : p ∈ scores := hperm.mem_iff.mp ((List.take_sublist k sorted).mem hp)
  have hpval : p = (e.1, f e.2) := by
    rw [hscores] at hpscores
    rw [List.mem_map] at hpscores
    obtain ⟨e₀, he₀, rfl⟩ := hpscores
    have : e₀ = e := eq_of_mem_of_fst_eq l hnd e₀ e he₀ he (by simpa using hpfst)
    rw [this]
  -- the pair of the surviving entry sits in `drop k sorted`
  obtain ⟨he'l, he'R⟩ := mem_removeKeys l _ e' he'
  have hq : (e'.1, f e'.2) ∈ sorted := by
    apply hperm.mem_iff.mpr
    rw [hscores, List.mem_map]
    exact ⟨e', he'l, rfl⟩
  have hqdrop : (e'.1, f e'.2) ∈ sorted.drop k := by
    rcases List.mem_append.mp ((List.take_append_drop k sorted) ▸ hq) with htake | hdrop
    · exfalso
      have hmemR : e'.1 ∈ lowestScoringKeys scores k := by
        unfold lowestScoringKeys
        rw [← hsorted, List.mem_map]
        exact ⟨(e'.1, f e'.2), htake, rfl⟩
      have : (lowestScoringKeys scores k).contains e'.1 = true := List.elem_iff.mpr hmemR
      rw [hscores] at this
      rw [this] at he'R
      cases he'R
    · exact hdrop
  have := hsortedPairwise.rel_of_mem_take_of_mem_drop (hpval ▸ hp) hqdrop
  simpa using this

/-- `removeKeys` with the lowest-`k` selection removes exactly `k` entries
(when the keys are distinct and `k` does not exceed the size). -/
theorem length_removeKeys_lowest (l : List (α × β)) (f : β → ℝ) (k : ℕ)
    (hnd : (l.map Prod.fst).Nodup) (hk : k ≤ l.length) :
    (removeKeys l (lowestScoringKeys (l.map (fun e => (e.1, f e.2))) k)).length =
      l.length - k := by
  have hndscores : ((l.map (fun e => (e.1, f e.2))).map Prod.fst).Nodup := by
    rw [List.map_map]; simpa using hnd
  have hlen : (lowestScoringKeys (l.map (fun e => (e.1, f e.2))) k).length = k :=
    length_lowestScoringKeys _ k (by simpa using hk)
  rw [length_removeKeys l _ hnd (nodup_lowestScoringKeys _ k hndscores)
    (fun a ha => by
      have := lowestScoringKeys_subset _ k a ha
      rw [List.map_map] at this
      simpa using this)]
  rw [hlen]

end PruneLemmas

/-! ### Arithmetic of the truncated removal count -/

theorem pruneCount_le {n cap : ℕ} (_h : cap ≤ n) : pruneCount n cap ≤ n := by
  unfold pruneCount
  rw [Int.toNat_le]
  calc ⌊(n : ℚ) - (cap : ℚ) * (9 / 10)⌋ ≤ ⌊(n : ℚ)⌋ := by
        apply Int.floor_le_floor
        have : (0 : ℚ) ≤ (cap : ℚ) * (9 / 10) := by positivity
        linarith
    _ = (n : ℤ) := by rw [Int.floor_natCast]

theorem pruneCount_cast {n cap : ℕ} (h : cap ≤ n) :
    (pruneCount n cap : ℤ) = (n : ℤ) - ⌈(cap : ℚ) * (9 / 10)⌉ := by
  unfold pruneCount
  have hceil_le : ⌈(cap : ℚ) * (9 / 10)⌉ ≤ (cap : ℤ) := by
    rw [Int.ceil_le]
    push_cast
    nlinarith [Nat.cast_nonneg (α := ℚ) cap]
  have hfloor : ⌊(n : ℚ) - (cap : ℚ) * (9 / 10)⌋ = (n : ℤ) - ⌈(cap : ℚ) * (9 / 10)⌉ := by
    rw [sub_eq_add_neg]
    have : ((n : ℤ) : ℚ) = (n : ℚ) := by push_cast; ring
    rw [← this, Int.floor_int_add, Int.floor_neg]
    ring
  rw [hfloor, Int.toNat_of_nonneg]
  have : (cap : ℤ) ≤ (n : ℤ) := by exact_mod_cast h
  omega

theorem sub_pruneCount_lt {n cap : ℕ} (h10 : 10 ≤ cap) (hge : cap ≤ n) :
    n - pruneCount n cap < cap := by
  have hcast := pruneCount_cast hge
  have hceil_lt : ⌈(cap : ℚ) * (9 / 10)⌉ < (cap : ℤ) := by
    have : ⌈(cap : ℚ) * (9 / 10)⌉ ≤ (cap : ℤ) - 1 := by
      rw [Int.ceil_le]
      push_cast
      have : (10 : ℚ) ≤ (cap : ℚ) := by exact_mod_cast h10
      nlinarith
    omega
  have hceil_nonneg : 0 ≤ ⌈(cap : ℚ) * (9 / 10)⌉ := Int.ceil_nonneg (by positivity)
  have hle := pruneCount_le hge
  have hcap : (cap : ℤ) ≤ (n : ℤ) := by exact_mod_cast hge
  omega

/-! ### Further association-list facts used by the claims -/

section MoreAssocLemmas

variable {α : Type} {β : Type} [BEq α] [LawfulBEq α]

theorem lookup_mapAtKey (l : List (α × β)) (k : α) (f : β → β) :
    lookup (mapAtKey l k f) k = (lookup l k).map f := by
  induction l with
  | nil => simp [mapAtKey, lookup]
  | cons e t ih =>
    by_cases he : (e.1 == k) = true
    · simp [mapAtKey, lookup, List.find?_cons, he]
    · simpa [mapAtKey, lookup, List.find?_cons, he] using ih

theorem lookup_eq_some_mem (l : List (α × β)) (k : α) (v : β)
    (h : lookup l k = some v) : ∃ e ∈ l, e.1 = k ∧ e.2 = v := by
  unfold lookup at h
  rw [Option.map_eq_some'] at h
  obtain ⟨e, he, rfl⟩ := h
  refine ⟨e, List.mem_of_find?_eq_some he, ?_, rfl⟩
  have := List.find?_some he
  exact eq_of_beq this

theorem lowestScoringKeys_zero (scores : List (α × ℝ)) :
    lowestScoringKeys scores 0 = [] := rfl

theorem removeKeys_nil (l : List (α × β)) : removeKeys l [] = l := by
  unfold removeKeys
  apply List.filter_eq_self.mpr
  intro e _
  rfl

theorem nodup_map_fst_removeKeys (l : List (α × β)) (R : List α)
    (hnd : (l.map Prod.fst).Nodup) : ((removeKeys l R).map Prod.fst).Nodup :=
  ((List.filter_sublist l).map Prod.fst).nodup hnd

theorem length_removeKeys_le (l : List (α × β)) (R : List α) :
    (removeKeys l R).length ≤ l.length :=
  l.length_filter_le _

end MoreAssocLemmas

/-- The access-bookkeeping fold of `MemoryStore::search` leaves the key
sequence of the map unchanged. -/
theorem map_fst_foldl_bump_memory (now : ℤ) (rs : List Memory)
    (acc : List (String × Memory)) :
    ((rs.foldl (fun acc r => mapAtKey acc r.id
        (fun m => { m with last_accessed := now, access_count := m.access_count + 1 }))
      acc).map Prod.fst) = acc.map Prod.fst := by
  induction rs generalizing acc with
  | nil => rfl
  | cons r rs ih => rw [List.foldl_cons, ih, map_fst_mapAtKey]

/-- The access-bookkeeping fold of `SemanticMemory::search` leaves the key
sequence of the map unchanged. -/
theorem map_fst_foldl_bump_node (now : ℤ) (rs : List SemanticNode)
    (acc : List (String × Node)) :
    ((rs.foldl (fun acc r => mapAtKey acc r.id
        (fun n => { n with last_accessed := now, access_count := n.access_count + 1 }))
      acc).map Prod.fst) = acc.map Prod.fst := by
  induction rs generalizing acc with
  | nil => rfl
  | cons r rs ih => rw [List.foldl_cons, ih, map_fst_mapAtKey]

/-! ### The capacity invariant of `MemoryStore` -/

namespace MemoryStore

/-- The inductive invariant of a `MemoryStore` built with capacity `cap`:
the capacity field is `cap`, the map keys are distinct, and the size is
bounded by the capacity. -/
def Inv (cap : ℕ) (s : MemoryStore) : Prop :=
  s.capacity = cap ∧ (s.memories.map Prod.fst).Nodup ∧ s.memories.length ≤ cap

theorem prune_capacity (s : MemoryStore) (now : ℤ) : (s.prune now).capacity = s.capacity := by
  unfold prune
  split <;> rfl

theorem prune_nodup (s : MemoryStore) (now : ℤ)
    (hnd : (s.memories.map Prod.fst).Nodup) :
    ((s.prune now).memories.map Prod.fst).Nodup := by
  unfold prune
  split
  · exact hnd
  · exact nodup_map_fst_removeKeys _ _ hnd

theorem prune_length_lt (s : MemoryStore) (now : ℤ) (h10 : 10 ≤ s.capacity)
    (hnd : (s.memories.map Prod.fst).Nodup) (hge : s.capacity ≤ s.memories.length) :
    (s.prune now).memories.length < s.capacity := by
  unfold prune
  rw [if_neg (by omega)]
  show (removeKeys s.memories _).length < s.capacity
  rw [length_removeKeys_lowest s.memories
    (fun m => calculate_retention_score m now) _ hnd (pruneCount_le hge)]
  exact sub_pruneCount_lt h10 hge

theorem store_inv {cap : ℕ} (s : MemoryStore) (m : Memory) (now : ℤ)
    (h10 : 10 ≤ cap) (h : Inv cap s) : Inv cap (s.store m now) := by
  obtain ⟨hcap, hnd, hlen⟩ := h
  have key : ∀ (s' : MemoryStore) (v : Memory), s'.capacity = cap →
      ((s'.memories.map Prod.fst).Nodup) → s'.memories.length < cap →
      Inv cap { s' with memories := setKey s'.memories v.id v } := by
    intro s' v h1 h2 h3
    refine ⟨h1, nodup_map_fst_setKey _ _ _ h2, ?_⟩
    have := length_setKey_le s'.memories v.id v
    show (setKey s'.memories _ _).length ≤ cap
    omega
  by_cases hge : s.memories.length ≥ s.capacity
  · have heq : s.store m now = { s.prune now with
        memories := (setKey (s.prune now).memories ({ m with timestamp := now, last_accessed := now }).id { m with timestamp := now, last_accessed := now }) } := by
      unfold store
      rw [if_pos hge]
    rw [heq]
    exact key (s.prune now) _ (by rw [prune_capacity]; exact hcap)
      (prune_nodup s now hnd) (hcap ▸ prune_length_lt s now (hcap ▸ h10) hnd hge)
  · have heq : s.store m now = { s with
        memories := (setKey s.memories ({ m with timestamp := now, last_accessed := now }).id { m with timestamp := now, last_accessed := now }) } := by
      unfold store
      rw [if_neg hge]
    rw [heq]
    exact key s _ hcap hnd (by omega)

theorem retrieve_inv {cap : ℕ} (s : MemoryStore) (id : String) (now : ℤ)
    (h : Inv cap s) : Inv cap (s.retrieve id now).1 := by
  obtain ⟨hcap, hnd, hlen⟩ := h
  unfold retrieve
  cases hl : lookup s.memories id with
  | none => exact ⟨hcap, hnd, hlen⟩
  | some m =>
    refine ⟨hcap, ?_, ?_⟩
    · rw [map_fst_mapAtKey]; exact hnd
    · rw [length_mapAtKey]; exact hlen

theorem mem_search_inv {cap : ℕ} (s : MemoryStore) (q : Query) (limit : ℕ) (now : ℤ)
    (h : Inv cap s) : Inv cap (s.search q limit now).1 := by
  obtain ⟨hcap, hnd, hlen⟩ := h
  have hkeys := map_fst_foldl_bump_memory now (s.search q limit now).2 s.memories
  refine ⟨hcap, ?_, ?_⟩
  · exact hkeys ▸ hnd
  · have h1 := congrArg List.length hkeys
    rw [List.length_map, List.length_map] at h1
    exact le_trans (le_of_eq h1) hlen

theorem update_inv {cap : ℕ} (s : MemoryStore) (id : String) (u : MemoryUpdate)
    (now : ℤ) (h : Inv cap s) : Inv cap (s.update id u now).1 := by
  obtain ⟨hcap, hnd, hlen⟩ := h
  unfold update
  cases hl : lookup s.memories id with
  | none => exact ⟨hcap, hnd, hlen⟩
  | some m =>
    refine ⟨hcap, ?_, ?_⟩
    · rw [map_fst_mapAtKey]; exact hnd
    · rw [length_mapAtKey]; exact hlen

theorem remove_inv {cap : ℕ} (s : MemoryStore) (id : String)
    (h : Inv cap s) : Inv cap (s.remove id).1 := by
  obtain ⟨hcap, hnd, hlen⟩ := h
  refine ⟨hcap, ?_, ?_⟩
  · exact ((List.filter_sublist s.memories).map Prod.fst).nodup hnd
  · exact le_trans (s.memories.length_filter_le _) hlen

theorem clear_inv {cap : ℕ} (s : MemoryStore) (h : Inv cap s) : Inv cap s.clear := by
  obtain ⟨hcap, _, _⟩ := h
  exact ⟨hcap, by simp [clear], by simp [clear]⟩

theorem prune_inv {cap : ℕ} (s : MemoryStore) (now : ℤ) (h : Inv cap s) :
    Inv cap (s.prune now) := by
  obtain ⟨hcap, hnd, hlen⟩ := h
  refine ⟨by rw [prune_capacity]; exact hcap, prune_nodup s now hnd, ?_⟩
  unfold prune
  split
  · exact hlen
  · exact le_trans (length_removeKeys_le _ _) hlen

end MemoryStore

/-- The public operations of `MemoryStore` (spec §6), for quantifying over
arbitrary call sequences. -/
inductive MemOp where
  | storeOp : Memory → ℤ → MemOp
  | retrieveOp : String → ℤ → MemOp
  | searchOp : Query → ℕ → ℤ → MemOp
  | updateOp : String → MemoryUpdate → ℤ → MemOp
  | removeOp : String → MemOp
  | clearOp : MemOp
  | pruneOp : ℤ → MemOp

namespace MemoryStore

/-- Execute one public `MemoryStore` call (discarding the returned value). -/
noncomputable def applyOp (s : MemoryStore) : MemOp → MemoryStore
  | .storeOp m now => s.store m now
  | .retrieveOp id now => (s.retrieve id now).1
  | .searchOp q limit now => (s.search q limit now).1
  | .updateOp id u now => (s.update id u now).1
  | .removeOp id => (s.remove id).1
  | .clearOp => s.clear
  | .pruneOp now => s.prune now

/-- Execute a sequence of public `MemoryStore` calls. -/
noncomputable def run (s : MemoryStore) (ops : List MemOp) : MemoryStore :=
  ops.foldl applyOp s

theorem mem_applyOp_inv {cap : ℕ} (s : MemoryStore) (op : MemOp)
    (h10 : 10 ≤ cap) (h : Inv cap s) : Inv cap (s.applyOp op) := by
  cases op with
  | storeOp m now => exact store_inv s m now h10 h
  | retrieveOp id now => exact retrieve_inv s id now h
  | searchOp q limit now => exact mem_search_inv s q limit now h
  | updateOp id u now => exact update_inv s id u now h
  | removeOp id => exact remove_inv s id h
  | clearOp => exact clear_inv s h
  | pruneOp now => exact prune_inv s now h

theorem mem_run_inv {cap : ℕ} (s : MemoryStore) (ops : List MemOp)
    (h10 : 10 ≤ cap) (h : Inv cap s) : Inv cap (s.run ops) := by
  induction ops generalizing s with
  | nil => exact h
  | cons op ops ih => exact ih (s.applyOp op) (mem_applyOp_inv s op h10 h)

theorem mem_init_inv (cap : ℕ) : Inv cap (init cap) := ⟨rfl, by simp [init], by simp [init]⟩

end MemoryStore

/-! ### The capacity invariants of `EpisodicMemory` -/

namespace EpisodicMemory

/-- The inductive invariant of an `EpisodicMemory` built with episode
capacity `cap` and per-episode memory capacity `maxm`. -/
def Inv (cap maxm : ℕ) (s : EpisodicMemory) : Prop :=
  s.capacity = cap ∧ s.max_memories_per_episode = maxm ∧
  (s.episodes.map Prod.fst).Nodup ∧ s.episodes.length ≤ cap ∧
  ∀ e ∈ s.episodes, e.2.memories.length ≤ maxm

theorem prune_episodes_fields (s : EpisodicMemory) (now : ℤ) :
    (s.prune_episodes now).capacity = s.capacity ∧
    (s.prune_episodes now).max_memories_per_episode = s.max_memories_per_episode ∧
    (s.prune_episodes now).counter = s.counter := ⟨rfl, rfl, rfl⟩

theorem prune_episodes_nodup (s : EpisodicMemory) (now : ℤ)
    (hnd : (s.episodes.map Prod.fst).Nodup) :
    ((s.prune_episodes now).episodes.map Prod.fst).Nodup :=
  nodup_map_fst_removeKeys _ _ hnd

theorem prune_episodes_subset (s : EpisodicMemory) (now : ℤ) :
    ∀ e ∈ (s.prune_episodes now).episodes, e ∈ s.episodes := by
  intro e he
  exact (mem_removeKeys _ _ e he).1

theorem prune_episodes_length_lt (s : EpisodicMemory) (now : ℤ)
    (h10 : 10 ≤ s.capacity) (hnd : (s.episodes.map Prod.fst).Nodup)
    (hge : s.capacity ≤ s.episodes.length) :
    (s.prune_episodes now).episodes.length < s.capacity := by
  show (removeKeys s.episodes _).length < s.capacity
  rw [length_removeKeys_lowest s.episodes
    (fun ep => calculate_retention_score ep now) _ hnd (pruneCount_le hge)]
  exact sub_pruneCount_lt h10 hge

theorem prune_memories_length (maxm : ℕ) (ep : Episode)
    (hge : maxm ≤ ep.memories.length) :
    (prune_memories maxm ep).memories.length =
      ep.memories.length - pruneCount ep.memories.length maxm := by
  show ((removeKeys ep.memories.enum _).map Prod.snd).length = _
  rw [List.length_map]
  have hnd : (ep.memories.enum.map Prod.fst).Nodup := by
    rw [List.enum_map_fst]; exact List.nodup_range _
  have hk : pruneCount ep.memories.length maxm ≤ ep.memories.enum.length := by
    rw [List.enum_length]; exact pruneCount_le hge
  have := length_removeKeys_lowest ep.memories.enum
    (fun m => calculate_memory_importance m) (pruneCount ep.memories.length maxm) hnd hk
  rw [this, List.enum_length]

theorem prune_memories_length_lt (maxm : ℕ) (ep : Episode) (h10 : 10 ≤ maxm)
    (hge : maxm ≤ ep.memories.length) :
    (prune_memories maxm ep).memories.length < maxm := by
  rw [prune_memories_length maxm ep hge]
  exact sub_pruneCount_lt h10 hge

theorem create_episode_inv {cap maxm : ℕ} (s : EpisodicMemory)
    (context : List (String × String)) (now : ℤ)
    (h10 : 10 ≤ cap) (h : Inv cap maxm s) :
    Inv cap maxm (s.create_episode context now).1 := by
  obtain ⟨hcap, hmax, hnd, hlen, hmem⟩ := h
  have key : ∀ s' : EpisodicMemory, s'.capacity = cap →
      s'.max_memories_per_episode = maxm →
      ((s'.episodes.map Prod.fst).Nodup) → s'.episodes.length < cap →
      (∀ e ∈ s'.episodes, e.2.memories.length ≤ maxm) →
      Inv cap maxm { s' with
        episodes := (mapAtKey (emplaceKey s'.episodes (generate_id s'.counter) ⟨generate_id s'.counter, now, [], [], 0, 0, now⟩) (generate_id s'.counter) (fun ep => { ep with context := context })),
        counter := s'.counter + 1 } := by
    intro s' h1 h2 h3 h4 h5
    refine ⟨h1, h2, ?_, ?_, ?_⟩
    · rw [map_fst_mapAtKey]
      exact nodup_map_fst_emplaceKey _ _ _ h3
    · rw [length_mapAtKey]
      have := length_emplaceKey_le s'.episodes (generate_id s'.counter)
        (⟨generate_id s'.counter, now, [], [], 0, 0, now⟩ : Episode)
      omega
    · intro e he
      dsimp only at he
      obtain ⟨e₀, he₀, hcase⟩ := mem_mapAtKey _ _ _ e he
      have hbase : e₀.2.memories.length ≤ maxm := by
        unfold emplaceKey at he₀
        by_cases hany : s'.episodes.any (fun e => e.1 == generate_id s'.counter) = true
        · rw [if_pos hany] at he₀
          exact h5 e₀ he₀
        · rw [if_neg hany] at he₀
          rcases List.mem_append.mp he₀ with hin | hnew
          · exact h5 e₀ hin
          · simp only [List.mem_singleton] at hnew
            subst hnew
            simp
      rcases hcase with rfl | rfl
      · exact hbase
      · exact hbase
  by_cases hge : s.episodes.length ≥ s.capacity
  · have heq : (s.create_episode context now).1 = { s.prune_episodes now with
        episodes := (mapAtKey (emplaceKey (s.prune_episodes now).episodes (generate_id (s.prune_episodes now).counter) ⟨generate_id (s.prune_episodes now).counter, now, [], [], 0, 0, now⟩) (generate_id (s.prune_episodes now).counter) (fun ep => { ep with context := context })),
        counter := (s.prune_episodes now).counter + 1 } := by
      unfold create_episode
      rw [if_pos hge]
    rw [heq]
    refine key (s.prune_episodes now) ((prune_episodes_fields s now).1.trans hcap)
      ((prune_episodes_fields s now).2.1.trans hmax)
      (prune_episodes_nodup s now hnd)
      (hcap ▸ prune_episodes_length_lt s now (hcap ▸ h10) hnd hge) ?_
    intro e he
    exact hmem e (prune_episodes_subset s now e he)
  · have heq : (s.create_episode context now).1 = { s with
        episodes := (mapAtKey (emplaceKey s.episodes (generate_id s.counter) ⟨generate_id s.counter, now, [], [], 0, 0, now⟩) (generate_id s.counter) (fun ep => { ep with context := context })),
        counter := s.counter + 1 } := by
      unfold create_episode
      rw [if_neg hge]
    rw [heq]
    exact key s hcap hmax hnd (by omega) hmem

theorem add_memory_inv {cap maxm : ℕ} (s : EpisodicMemory) (episode_id : String)
    (m : Memory) (h10 : 10 ≤ maxm) (h : Inv cap maxm s) :
    Inv cap maxm (s.add_memory episode_id m).1 := by
  obtain ⟨hcap, hmax, hnd, hlen, hmem⟩ := h
  unfold add_memory
  cases hl : lookup s.episodes episode_id with
  | none => exact ⟨hcap, hmax, hnd, hlen, hmem⟩
  | some ep =>
    obtain ⟨e₀, he₀, _, hval⟩ := lookup_eq_some_mem s.episodes episode_id ep hl
    have hep_len : ep.memories.length ≤ maxm := hval ▸ hmem e₀ he₀
    have hnew_len : ∀ ep₂ : Episode,
        ep₂ = (if ep.memories.length ≥ s.max_memories_per_episode then
          prune_memories s.max_memories_per_episode ep else ep) →
        ep₂.memories.length < maxm := by
      intro ep₂ hdef
      by_cases hge : ep.memories.length ≥ s.max_memories_per_episode
      · rw [if_pos hge] at hdef
        rw [hdef, hmax]
        exact hmax ▸ prune_memories_length_lt maxm ep h10 (by omega)
      · rw [if_neg hge] at hdef
        rw [hdef]
        omega
    refine ⟨hcap, hmax, ?_, ?_, ?_⟩
    · rw [map_fst_mapAtKey]; exact hnd
    · rw [length_mapAtKey]; exact hlen
    · intro e he
      dsimp only at he
      obtain ⟨e₁, he₁, hcase⟩ := mem_mapAtKey _ _ _ e he
      rcases hcase with rfl | rfl
      · exact hmem _ he₁
      · show (update_episode_importance _).memories.length ≤ maxm
        show (_ ++ [m]).length ≤ maxm
        rw [List.length_append]
        have := hnew_len _ rfl
        simpa using this

theorem recall_episode_inv {cap maxm : ℕ} (s : EpisodicMemory) (episode_id : String)
    (now : ℤ) (h : Inv cap maxm s) : Inv cap maxm (s.recall_episode episode_id now).1 := by
  obtain ⟨hcap, hmax, hnd, hlen, hmem⟩ := h
  unfold recall_episode
  cases hl : lookup s.episodes episode_id with
  | none => exact ⟨hcap, hmax, hnd, hlen, hmem⟩
  | some ep =>
    refine ⟨hcap, hmax, ?_, ?_, ?_⟩
    · rw [map_fst_mapAtKey]; exact hnd
    · rw [length_mapAtKey]; exact hlen
    · intro e he
      dsimp only at he
      obtain ⟨e₁, he₁, hcase⟩ := mem_mapAtKey _ _ _ e he
      rcases hcase with rfl | rfl
      · exact hmem _ he₁
      · simpa using hmem _ he₁

theorem search_state_eq (s : EpisodicMemory) (q : EpisodeQuery) (limit : ℕ)
    (now : ℤ) : (s.search q limit now).1 = s := rfl

end EpisodicMemory

/-- The public operations of `EpisodicMemory` (spec §6). -/
inductive EpOp where
  | createOp : List (String × String) → ℤ → EpOp
  | addOp : String → Memory → EpOp
  | recallOp : String → ℤ → EpOp
  | searchOp : EpisodeQuery → ℕ → ℤ → EpOp

namespace EpisodicMemory

/-- Execute one public `EpisodicMemory` call (discarding the returned value). -/
noncomputable def applyOp (s : EpisodicMemory) : EpOp → EpisodicMemory
  | .createOp ctx now => (s.create_episode ctx now).1
  | .addOp id m => (s.add_memory id m).1
  | .recallOp id now => (s.recall_episode id now).1
  | .searchOp q limit now => (s.search q limit now).1

/-- Execute a sequence of public `EpisodicMemory` calls. -/
noncomputable def run (s : EpisodicMemory) (ops : List EpOp) : EpisodicMemory :=
  ops.foldl applyOp s

theorem epi_applyOp_inv {cap maxm : ℕ} (s : EpisodicMemory) (op : EpOp)
    (hc : 10 ≤ cap) (hm : 10 ≤ maxm) (h : Inv cap maxm s) :
    Inv cap maxm (s.applyOp op) := by
  cases op with
  | createOp ctx now => exact create_episode_inv s ctx now hc h
  | addOp id m => exact add_memory_inv s id m hm h
  | recallOp id now => exact recall_episode_inv s id now h
  | searchOp q limit now => exact (search_state_eq s q limit now) ▸ h

theorem epi_run_inv {cap maxm : ℕ} (s : EpisodicMemory) (ops : List EpOp)
    (hc : 10 ≤ cap) (hm : 10 ≤ maxm) (h : Inv cap maxm s) :
    Inv cap maxm (s.run ops) := by
  induction ops generalizing s with
  | nil => exact h
  | cons op ops ih => exact ih (s.applyOp op) (epi_applyOp_inv s op hc hm h)

theorem epi_init_inv (cap maxm : ℕ) : Inv cap maxm (init cap maxm) :=
  ⟨rfl, rfl, by simp [init], by simp [init], by simp [init]⟩

end EpisodicMemory

/-! ### The capacity invariant of `SemanticMemory` -/

namespace SemanticMemory

/-- The inductive invariant of a `SemanticMemory` built with capacity `cap`. -/
def Inv (cap : ℕ) (s : SemanticMemory) : Prop :=
  s.capacity = cap ∧ (s.nodes.map Prod.fst).Nodup ∧ s.nodes.length ≤ cap

theorem prune_nodes_capacity (s : SemanticMemory) (now : ℤ) :
    (s.prune_nodes now).capacity = s.capacity := rfl

theorem prune_nodes_nodup (s : SemanticMemory) (now : ℤ)
    (hnd : (s.nodes.map Prod.fst).Nodup) :
    ((s.prune_nodes now).nodes.map Prod.fst).Nodup :=
  nodup_map_fst_removeKeys _ _ hnd

theorem prune_nodes_length_lt (s : SemanticMemory) (now : ℤ)
    (h10 : 10 ≤ s.capacity) (hnd : (s.nodes.map Prod.fst).Nodup)
    (hge : s.capacity ≤ s.nodes.length) :
    (s.prune_nodes now).nodes.length < s.capacity := by
  show (removeKeys s.nodes _).length < s.capacity
  rw [length_removeKeys_lowest s.nodes
    (fun n => calculate_retention_score n now) _ hnd (pruneCount_le hge)]
  exact sub_pruneCount_lt h10 hge

theorem create_node_inv {cap : ℕ} (s : SemanticMemory) (concept : String)
    (attributes : List (String × String)) (now : ℤ)
    (h10 : 10 ≤ cap) (h : Inv cap s) : Inv cap (s.create_node concept attributes now).1 := by
  obtain ⟨hcap, hnd, hlen⟩ := h
  have key : ∀ s' : SemanticMemory, s'.capacity = cap →
      ((s'.nodes.map Prod.fst).Nodup) → s'.nodes.length < cap →
      Inv cap { s' with
        nodes := (mapAtKey (emplaceKey s'.nodes (generate_id s'.counter) ⟨generate_id s'.counter, concept, [], [], 0, 0, now, now⟩) (generate_id s'.counter) (fun n => { n with attributes := attributes })),
        counter := s'.counter + 1 } := by
    intro s' h1 h2 h3
    refine ⟨h1, ?_, ?_⟩
    · rw [map_fst_mapAtKey]
      exact nodup_map_fst_emplaceKey _ _ _ h2
    · rw [length_mapAtKey]
      have := length_emplaceKey_le s'.nodes (generate_id s'.counter)
        (⟨generate_id s'.counter, concept, [], [], 0, 0, now, now⟩ : Node)
      omega
  by_cases hge : s.nodes.length ≥ s.capacity
  · have heq : (s.create_node concept attributes now).1 = { s.prune_nodes now with
        nodes := (mapAtKey (emplaceKey (s.prune_nodes now).nodes (generate_id (s.prune_nodes now).counter) ⟨generate_id (s.prune_nodes now).counter, concept, [], [], 0, 0, now, now⟩) (generate_id (s.prune_nodes now).counter) (fun n => { n with attributes := attributes })),
        counter := (s.prune_nodes now).counter + 1 } := by
      unfold create_node
      rw [if_pos hge]
    rw [heq]
    exact key (s.prune_nodes now) hcap (prune_nodes_nodup s now hnd)
      (hcap ▸ prune_nodes_length_lt s now (hcap ▸ h10) hnd hge)
  · have heq : (s.create_node concept attributes now).1 = { s with
        nodes := (mapAtKey (emplaceKey s.nodes (generate_id s.counter) ⟨generate_id s.counter, concept, [], [], 0, 0, now, now⟩) (generate_id s.counter) (fun n => { n with attributes := attributes })),
        counter := s.counter + 1 } := by
      unfold create_node
      rw [if_neg hge]
    rw [heq]
    exact key s hcap hnd (by omega)

theorem add_relationship_inv {cap : ℕ} (s : SemanticMemory) (from_id to_id : String)
    (strength : ℚ) (h : Inv cap s) : Inv cap (s.add_relationship from_id to_id strength).1 := by
  obtain ⟨hcap, hnd, hlen⟩ := h
  unfold add_relationship
  cases hf : lookup s.nodes from_id with
  | none => exact ⟨hcap, hnd, hlen⟩
  | some fn =>
    cases ht : lookup s.nodes to_id with
    | none => exact ⟨hcap, hnd, hlen⟩
    | some tn =>
      refine ⟨hcap, ?_, ?_⟩
      · rw [map_fst_mapAtKey]; exact hnd
      · rw [length_mapAtKey]; exact hlen

theorem get_node_inv {cap : ℕ} (s : SemanticMemory) (id : String) (now : ℤ)
    (h : Inv cap s) : Inv cap (s.get_node id now).1 := by
  obtain ⟨hcap, hnd, hlen⟩ := h
  unfold get_node
  cases hl : lookup s.nodes id with
  | none => exact ⟨hcap, hnd, hlen⟩
  | some n =>
    refine ⟨hcap, ?_, ?_⟩
    · rw [map_fst_mapAtKey]; exact hnd
    · rw [length_mapAtKey]; exact hlen

theorem sem_search_inv {cap : ℕ} (s : SemanticMemory) (q : SemanticQuery) (limit : ℕ)
    (now : ℤ) (h : Inv cap s) : Inv cap (s.search q limit now).1 := by
  obtain ⟨hcap, hnd, hlen⟩ := h
  have hkeys := map_fst_foldl_bump_node now (s.search q limit now).2 s.nodes
  refine ⟨hcap, ?_, ?_⟩
  · exact hkeys ▸ hnd
  · have h1 := congrArg List.length hkeys
    rw [List.length_map, List.length_map] at h1
    exact le_trans (le_of_eq h1) hlen

theorem get_related_nodes_state_eq (s : SemanticMemory) (id : String)
    (min_strength : ℚ) (limit : ℕ) : (s.get_related_nodes id min_strength limit).1 = s := by
  unfold get_related_nodes
  cases lookup s.nodes id <;> rfl

theorem update_node_importance_inv {cap : ℕ} (s : SemanticMemory) (id : String)
    (importance : ℚ) (h : Inv cap s) : Inv cap (s.update_node_importance id importance) := by
  obtain ⟨hcap, hnd, hlen⟩ := h
  unfold update_node_importance
  cases hl : lookup s.nodes id with
  | none => exact ⟨hcap, hnd, hlen⟩
  | some n =>
    refine ⟨hcap, ?_, ?_⟩
    · rw [map_fst_mapAtKey]; exact hnd
    · rw [length_mapAtKey]; exact hlen

end SemanticMemory

/-- The public operations of `SemanticMemory` (spec §6). -/
inductive SemOp where
  | createOp : String → List (String × String) → ℤ → SemOp
  | addRelOp : String → String → ℚ → SemOp
  | getOp : String → ℤ → SemOp
  | searchOp : SemanticQuery → ℕ → ℤ → SemOp
  | relatedOp : String → ℚ → ℕ → SemOp
  | updImportanceOp : String → ℚ → SemOp

namespace SemanticMemory

/-- Execute one public `SemanticMemory` call (discarding the returned value). -/
noncomputable def applyOp (s : SemanticMemory) : SemOp → SemanticMemory
  | .createOp c attrs now => (s.create_node c attrs now).1
  | .addRelOp f t strength => (s.add_relationship f t strength).1
  | .getOp id now => (s.get_node id now).1
  | .searchOp q limit now => (s.search q limit now).1
  | .relatedOp id ms limit => (s.get_related_nodes id ms limit).1
  | .updImportanceOp id imp => s.update_node_importance id imp

/-- Execute a sequence of public `SemanticMemory` calls. -/
noncomputable def run (s : SemanticMemory) (ops : List SemOp) : SemanticMemory :=
  ops.foldl applyOp s

theorem sem_applyOp_inv {cap : ℕ} (s : SemanticMemory) (op : SemOp)
    (h10 : 10 ≤ cap) (h : Inv cap s) : Inv cap (s.applyOp op) := by
  cases op with
  | createOp c attrs now => exact create_node_inv s c attrs now h10 h
  | addRelOp f t strength => exact add_relationship_inv s f t strength h
  | getOp id now => exact get_node_inv s id now h
  | searchOp q limit now => exact sem_search_inv s q limit now h
  | relatedOp id ms limit =>
    show Inv cap (s.get_related_nodes id ms limit).1
    rw [get_related_nodes_state_eq s id ms limit]
    exact h
  | updImportanceOp id imp => exact update_node_importance_inv s id imp h

theorem sem_run_inv {cap : ℕ} (s : SemanticMemory) (ops : List SemOp)
    (h10 : 10 ≤ cap) (h : Inv cap s) : Inv cap (s.run ops) := by
  induction ops generalizing s with
  | nil => exact h
  | cons op ops ih => exact ih (s.applyOp op) (sem_applyOp_inv s op h10 h)

theorem sem_init_inv (cap : ℕ) : Inv cap (init cap) := ⟨rfl, by simp [init], by simp [init]⟩

end SemanticMemory

/-! ### Concrete sample data for counterexamples and witnesses -/

/-- A sample record with id `"a"`. -/
def mem_a : Memory := ⟨"a", "alpha", [], [], 0, 0, 0, 0, 1⟩

/-- A sample record with id `"b"`. -/
def mem_b : Memory := ⟨"b", "beta", [], [], 0, 0, 0, 0, 0⟩

/-- A `MemoryStore` of capacity 1 holding exactly one record. -/
def storeOne : MemoryStore := ⟨[("a", mem_a)], 1⟩

/-- At size 1 and capacity 1 the truncated removal count
`size_t(1 - 1*0.9)` is `0`. -/
theorem pruneCount_one_one : pruneCount 1 1 = 0 := by unfold pruneCount; norm_num

/-! ### Claim C1 -/

/-- Claim C1 as stated is false: a `MemoryStore` constructed with capacity 1
holds 2 records after two `store` calls with distinct ids, because
`prune` computes `to_remove = size_t(1 - 1*0.9) = 0` and removes nothing
before the insert. -/
theorem c1_counterexample :
    (((MemoryStore.init 1).store mem_a 0).store mem_b 0).capacity = 1 ∧
    (((MemoryStore.init 1).store mem_a 0).store mem_b 0).memories.length = 2 := by
  have h1 : (MemoryStore.init 1).store mem_a 0 =
      ⟨[("a", { mem_a with timestamp := 0, last_accessed := 0 })], 1⟩ := by
    unfold MemoryStore.store MemoryStore.init
    simp [setKey, mem_a]
  rw [h1]
  unfold MemoryStore.store MemoryStore.prune
  constructor
  · rfl
  · simp [pruneCount_one_one, lowestScoringKeys_zero, removeKeys_nil, setKey, mem_a, mem_b]

/-- Claim C1 (amended): after any sequence of public calls on a
`MemoryStore`, `EpisodicMemory` or `SemanticMemory` constructed with every
configured capacity at least 10, the owning collection's size
(the record map, the episode map, each episode's memory list, the node map)
is at most its configured capacity. (For capacities below 10 the truncation
in `to_remove = size - capacity*0.9` can make pruning remove nothing, and
the collection overflows — see the counterexample.) -/
theorem c1_capacity_invariant :
    (∀ (cap : ℕ) (ops : List MemOp), 10 ≤ cap →
      ((MemoryStore.init cap).run ops).memories.length ≤ cap) ∧
    (∀ (cap maxm : ℕ) (ops : List EpOp), 10 ≤ cap → 10 ≤ maxm →
      ((EpisodicMemory.init cap maxm).run ops).episodes.length ≤ cap ∧
      ∀ e ∈ ((EpisodicMemory.init cap maxm).run ops).episodes,
        e.2.memories.length ≤ maxm) ∧
    (∀ (cap : ℕ) (ops : List SemOp), 10 ≤ cap →
      ((SemanticMemory.init cap).run ops).nodes.length ≤ cap) := by
  refine ⟨?_, ?_, ?_⟩
  · intro cap ops h10
    exact (MemoryStore.mem_run_inv _ ops h10 (MemoryStore.mem_init_inv cap)).2.2
  · intro cap maxm ops hc hm
    have h := EpisodicMemory.epi_run_inv _ ops hc hm (EpisodicMemory.epi_init_inv cap maxm)
    exact ⟨h.2.2.2.1, h.2.2.2.2⟩
  · intro cap ops h10
    exact (SemanticMemory.sem_run_inv _ ops h10 (SemanticMemory.sem_init_inv cap)).2.2

/-- Witness for C1: the amended invariant applied to concrete stores of
capacity 10 and one-element call sequences. -/
theorem c1_capacity_invariant_witness :
    ((MemoryStore.init 10).run [MemOp.storeOp mem_a 0]).memories.length ≤ 10 ∧
    ((EpisodicMemory.init 10 10).run [EpOp.createOp [] 0]).episodes.length ≤ 10 ∧
    ((SemanticMemory.init 10).run [SemOp.createOp "animal" [] 0]).nodes.length ≤ 10 :=
  ⟨c1_capacity_invariant.1 10 [MemOp.storeOp mem_a 0] (by decide),
   (c1_capacity_invariant.2.1 10 10 [EpOp.createOp [] 0] (by decide) (by decide)).1,
   c1_capacity_invariant.2.2 10 [SemOp.createOp "animal" [] 0] (by decide)⟩

/-! ### Claim C2 -/

/-- Claim C2 as stated is false: pruning a full capacity-1 store of size 1
removes no entry (`size_t(1 - 0.9) = 0`), while the claim prescribes
removing `count - floor(capacity*0.9) = 1 - 0 = 1` entry. -/
theorem c2_counterexample :
    (storeOne.prune 5).memories.length = 1 ∧
    storeOne.memories.length - Nat.floor ((storeOne.capacity : ℚ) * (9 / 10)) = 1 := by
  constructor
  · unfold MemoryStore.prune
    norm_num [storeOne, pruneCount_one_one, lowestScoringKeys_zero, removeKeys_nil]
  · show 1 - Nat.floor ((1 : ℚ) * (9 / 10)) = 1
    rw [show Nat.floor ((1 : ℚ) * (9 / 10)) = 0 from by norm_num]

/-- Claim C2 (amended): whenever pruning runs on a store whose size has
reached capacity, it computes a retention score per entry and removes
exactly `⌊count - capacity*0.9⌋` entries (that is,
`count - ⌈capacity*0.9⌉`, which is `count - floor(capacity*0.9)` only when
`capacity*0.9` is integral), and the removed entries score no higher than
every retained entry. -/
theorem c2_prune_lowest (s : MemoryStore) (now : ℤ)
    (hnd : (s.memories.map Prod.fst).Nodup) (hge : s.capacity ≤ s.memories.length) :
    (s.prune now).memories.length =
      s.memories.length - pruneCount s.memories.length s.capacity ∧
    ∀ e ∈ s.memories, e.1 ∉ (s.prune now).memories.map Prod.fst →
      ∀ e' ∈ (s.prune now).memories,
        MemoryStore.calculate_retention_score e.2 now ≤
          MemoryStore.calculate_retention_score e'.2 now := by
  have hpr : s.prune now = { s with
      memories := removeKeys s.memories (lowestScoringKeys (s.memories.map (fun e => (e.1, MemoryStore.calculate_retention_score e.2 now))) (pruneCount s.memories.length s.capacity)) } := by
    unfold MemoryStore.prune
    rw [if_neg (by omega)]
  constructor
  · rw [hpr]
    exact length_removeKeys_lowest s.memories
      (fun m => MemoryStore.calculate_retention_score m now) _ hnd (pruneCount_le hge)
  · intro e he hnotin e' he'
    rw [hpr] at hnotin he'
    have hkey : e.1 ∈ lowestScoringKeys
        (s.memories.map (fun e => (e.1, MemoryStore.calculate_retention_score e.2 now)))
        (pruneCount s.memories.length s.capacity) := by
      by_contra hno
      apply hnotin
      apply List.mem_map_of_mem Prod.fst
      show e ∈ removeKeys _ _
      unfold removeKeys
      rw [List.mem_filter]
      refine ⟨he, ?_⟩
      simp only [Bool.not_eq_true']
      rw [← Bool.not_eq_true]
      intro hc
      exact hno (List.elem_iff.mp hc)
    exact removeKeys_lowest_dominance s.memories
      (fun m => MemoryStore.calculate_retention_score m now) _ hnd e he hkey e' he'

/-- Witness for C2: the amended prune theorem applied to the concrete
one-record store of capacity 1 (no entry is removed there, matching
`⌊1 - 0.9⌋ = 0`). -/
theorem c2_prune_lowest_witness :
    (storeOne.prune 5).memories.length =
      storeOne.memories.length - pruneCount storeOne.memories.length storeOne.capacity ∧
    ∀ e ∈ storeOne.memories, e.1 ∉ (storeOne.prune 5).memories.map Prod.fst →
      ∀ e' ∈ (storeOne.prune 5).memories,
        MemoryStore.calculate_retention_score e.2 5 ≤
          MemoryStore.calculate_retention_score e'.2 5 :=
  c2_prune_lowest storeOne 5 (by decide) (by decide)

/-! ### Claim C3 -/

/-- A record created exactly at time 5. -/
def mem_t5 : Memory := ⟨"t", "x", [], [], 5, 0, 0, 0, 0⟩

/-- A query whose time range ends exactly at time 5. -/
def q_end5 : Query := ⟨"", [], none, some 5⟩

/-- Claim C3 as stated is false: a record whose creation timestamp equals
`end_time` does match (`matches_query` only rejects
`memory.timestamp > *query.end_time`), so the range is not half-open. -/
theorem c3_counterexample : MemoryStore.matches_query mem_t5 q_end5 = true := by decide

/-- Claim C3 (amended): the creation-time predicate of
`MemoryStore::matches_query` is the closed interval `[start, end]`: a
record matches iff the content and tag predicates hold, its timestamp is
not before `start_time` and not after `end_time`; a record whose timestamp
equals `end_time` still matches. -/
theorem c3_time_range_closed (m : Memory) (q : Query) :
    MemoryStore.matches_query m q = true ↔
      (q.content.isEmpty = true ∨ strContains m.content q.content = true) ∧
      (q.tags.isEmpty = true ∨ q.tags.any (fun t => m.tags.contains t) = true) ∧
      (∀ t ∈ q.start_time, t ≤ m.timestamp) ∧
      (∀ t ∈ q.end_time, m.timestamp ≤ t) := by
  rcases q with ⟨qc, qt, qs, qe⟩
  unfold MemoryStore.matches_query
  cases qs <;> cases qe <;>
    simp [Option.any, not_lt]

/-! ### Claim C4 -/

/-- The overwrite path of `add_relationship`: after replacing the strength
of every `from → to` entry, the first `from → to` entry carries the new
strength. -/
theorem find?_map_replace (t : List (String × ℚ)) (to_id : String) (strength : ℚ)
    (hany : t.any (fun rel => rel.1 == to_id) = true) :
    ((t.map (fun rel => if rel.1 == to_id then (rel.1, strength) else rel)).find?
        (fun rel => rel.1 == to_id)).map Prod.snd = some strength := by
  induction t with
  | nil => cases hany
  | cons r t ih =>
    rw [List.map_cons]
    by_cases hr : (r.1 == to_id) = true
    · rw [if_pos hr, List.find?_cons_of_pos _ (by simpa using hr)]
      rfl
    · rw [if_neg hr, List.find?_cons_of_neg _ (by simpa using hr)]
      rw [List.any_cons] at hany
      have ht : t.any (fun rel => rel.1 == to_id) = true := by
        rcases Bool.or_eq_true_iff.mp hany with h | h
        · exact absurd h hr
        · exact h
      exact ih ht

/-- After the update-or-append step of `add_relationship`, the `from → to`
edge carries exactly the given strength. -/
theorem find?_update_or_append (rels : List (String × ℚ)) (to_id : String) (strength : ℚ) :
    ((if rels.any (fun rel => rel.1 == to_id) then
        rels.map (fun rel => if rel.1 == to_id then (rel.1, strength) else rel)
      else rels ++ [(to_id, strength)]).find?
        (fun rel => rel.1 == to_id)).map Prod.snd = some strength := by
  by_cases hany : rels.any (fun rel => rel.1 == to_id) = true
  · rw [if_pos hany]
    exact find?_map_replace rels to_id strength hany
  · rw [if_neg hany]
    have hnone : rels.find? (fun rel => rel.1 == to_id) = none := by
      rw [List.find?_eq_none]
      intro x hx
      simp only [List.any_eq_true, not_exists, not_and] at hany
      simpa using hany x hx
    rw [List.find?_append, hnone]
    rw [List.find?_cons_of_pos _ (by simp)]
    rfl

/-- A sample node with id `"a"`. -/
def node_a : Node := ⟨"a", "animal", [], [], 0, 0, 0, 0⟩

/-- A sample node with id `"b"`. -/
def node_b : Node := ⟨"b", "animal", [], [], 0, 0, 0, 0⟩

/-- A `SemanticMemory` holding the two sample nodes. -/
def semTwo : SemanticMemory := ⟨[("a", node_a), ("b", node_b)], 10, 2⟩

/-- Claim C4 as stated is false: `add_relationship` performs no validation
of `strength`; called with the negative strength `-1` on two existing
nodes it returns `true` and stores the edge `("b", -1)` — the store is
mutated, not rejected. -/
theorem c4_counterexample :
    (semTwo.add_relationship "a" "b" (-1)).2 = true ∧
    lookup (semTwo.add_relationship "a" "b" (-1)).1.nodes "a" =
      some { node_a with relationships := [("b", -1)] } := by
  constructor
  · rfl
  · decide

/-- Claim C4 (amended): `add_relationship` does not validate `strength` at
all. With any strength value (negative included) it returns `false` and
leaves the store unchanged only when one of the two ids is unknown;
whenever both ids exist it returns `true` and overwrites or appends the
`from → to` edge with exactly the given strength. -/
theorem c4_no_strength_validation (s : SemanticMemory) (from_id to_id : String)
    (strength : ℚ) :
    (¬((lookup s.nodes from_id).isSome ∧ (lookup s.nodes to_id).isSome) →
      s.add_relationship from_id to_id strength = (s, false)) ∧
    (∀ fn, lookup s.nodes from_id = some fn → (lookup s.nodes to_id).isSome →
      (s.add_relationship from_id to_id strength).2 = true ∧
      ∃ fn', lookup (s.add_relationship from_id to_id strength).1.nodes from_id = some fn' ∧
        SemanticMemory.find_strength fn' to_id = strength) := by
  constructor
  · intro hmiss
    unfold SemanticMemory.add_relationship
    cases hf : lookup s.nodes from_id with
    | none => rfl
    | some fn =>
      cases ht : lookup s.nodes to_id with
      | none => rfl
      | some tn => exact absurd ⟨by rw [hf]; rfl, by rw [ht]; rfl⟩ hmiss
  · intro fn hf hts
    cases ht : lookup s.nodes to_id with
    | none => rw [ht] at hts; cases hts
    | some tn =>
      unfold SemanticMemory.add_relationship
      rw [hf, ht]
      dsimp only
      refine ⟨rfl, ?_⟩
      rw [lookup_mapAtKey, hf]
      dsimp only [Option.map]
      refine ⟨_, rfl, ?_⟩
      unfold SemanticMemory.find_strength
      dsimp only
      have h2 := find?_update_or_append fn.relationships to_id strength
      rw [Option.map_eq_some'] at h2
      obtain ⟨rel, hrel, hsnd⟩ := h2
      rw [hrel]
      exact hsnd

/-- Witness for C4: the characterisation applied to the concrete two-node
store with strength 1/2. -/
theorem c4_no_strength_validation_witness :
    (semTwo.add_relationship "a" "b" (1/2)).2 = true ∧
    ∃ fn', lookup (semTwo.add_relationship "a" "b" (1/2)).1.nodes "a" = some fn' ∧
      SemanticMemory.find_strength fn' "b" = 1/2 :=
  (c4_no_strength_validation semTwo "a" "b" (1/2)).2 node_a (by decide) (by decide)

/-! ### Claim C5 -/

/-- Monotonicity of the relevance formula: at equal creation timestamp and
equal importance, a relevance-no-smaller record has an access count no
smaller (because `0.3 * log1p(access_count)` is strictly increasing). -/
theorem relevance_access_mono (a b : Memory) (now : ℤ)
    (hts : a.timestamp = b.timestamp) (himp : a.importance = b.importance)
    (hrel : MemoryStore.calculate_relevance b now ≤ MemoryStore.calculate_relevance a now) :
    b.access_count ≤ a.access_count := by
  by_contra hlt
  push_neg at hlt
  have hlog : log1p (a.access_count : ℝ) < log1p (b.access_count : ℝ) := by
    unfold log1p
    apply Real.log_lt_log
    · positivity
    · have : (a.access_count : ℝ) < b.access_count := by exact_mod_cast hlt
      linarith
  unfold MemoryStore.calculate_relevance at hrel
  rw [hts, himp] at hrel
  dsimp only at hrel
  nlinarith [hlog]

/-- Claim C5: in every `MemoryStore::search` result, whenever two returned
records have identical creation timestamps and identical importance, the
earlier-ranked one has an access count at least that of the later-ranked
one — the relevance ranking is monotone in `access_count` when the other
factors are equal. -/
theorem c5_rank_monotone_access (s : MemoryStore) (q : Query) (limit : ℕ) (now : ℤ) :
    ((s.search q limit now).2).Pairwise
      (fun a b => a.timestamp = b.timestamp → a.importance = b.importance →
        b.access_count ≤ a.access_count) := by
  have htrans : ∀ a b c : Memory,
      decide (MemoryStore.calculate_relevance b now ≤ MemoryStore.calculate_relevance a now) = true →
      decide (MemoryStore.calculate_relevance c now ≤ MemoryStore.calculate_relevance b now) = true →
      decide (MemoryStore.calculate_relevance c now ≤ MemoryStore.calculate_relevance a now) = true := by
    intro a b c hab hbc
    simp only [decide_eq_true_eq] at *
    exact le_trans hbc hab
  have htotal : ∀ a b : Memory,
      (decide (MemoryStore.calculate_relevance b now ≤ MemoryStore.calculate_relevance a now) ||
       decide (MemoryStore.calculate_relevance a now ≤ MemoryStore.calculate_relevance b now)) = true := by
    intro a b
    simpa using le_total (MemoryStore.calculate_relevance b now)
      (MemoryStore.calculate_relevance a now)
  have hsorted := List.sorted_mergeSort htrans htotal
    ((s.memories.filter (fun e => MemoryStore.matches_query e.2 q)).map Prod.snd)
  have hP : (((s.memories.filter (fun e => MemoryStore.matches_query e.2 q)).map Prod.snd).mergeSort
      (fun a b => decide (MemoryStore.calculate_relevance b now ≤ MemoryStore.calculate_relevance a now))).Pairwise
      (fun a b => a.timestamp = b.timestamp → a.importance = b.importance →
        b.access_count ≤ a.access_count) := by
    refine hsorted.imp ?_
    intro a b h hts himp
    exact relevance_access_mono a b now hts himp (of_decide_eq_true h)
  by_cases hc : limit > 0 ∧
      (((s.memories.filter (fun e => MemoryStore.matches_query e.2 q)).map Prod.snd).mergeSort
        (fun a b => decide (MemoryStore.calculate_relevance b now ≤ MemoryStore.calculate_relevance a now))).length > limit
  · have h2 : (s.search q limit now).2 =
        (((s.memories.filter (fun e => MemoryStore.matches_query e.2 q)).map Prod.snd).mergeSort
          (fun a b => decide (MemoryStore.calculate_relevance b now ≤ MemoryStore.calculate_relevance a now))).take limit := by
      show (if _ ∧ _ then _ else _) = _
      rw [if_pos hc]
    rw [h2]
    exact List.Pairwise.sublist (List.take_sublist limit _) hP
  · have h2 : (s.search q limit now).2 =
        ((s.memories.filter (fun e => MemoryStore.matches_query e.2 q)).map Prod.snd).mergeSort
          (fun a b => decide (MemoryStore.calculate_relevance b now ≤ MemoryStore.calculate_relevance a now)) := by
      show (if _ ∧ _ then _ else _) = _
      rw [if_neg hc]
    rw [h2]
    exact hP

/-! ### Claim C6 -/

/-- A list with an element appended is never empty. -/
theorem isEmpty_append_singleton_false {γ : Type} (l : List γ) (x : γ) :
    (l ++ [x]).isEmpty = false := by
  cases l <;> rfl

/-- Claim C6: after every successful `add_memory` the episode is non-empty
and its aggregate importance is the arithmetic mean of the per-record
importance scores `importance * (1 + ln(1 + access_count))` of the records
now in it; and the updater yields 0 on an empty episode. -/
theorem c6_importance_mean (s : EpisodicMemory) (eid : String) (m : Memory)
    (hok : (s.add_memory eid m).2 = true) :
    (∀ ep', lookup (s.add_memory eid m).1.episodes eid = some ep' →
      ep'.memories ≠ [] ∧
      ep'.importance =
        (ep'.memories.map EpisodicMemory.calculate_memory_importance).sum /
          (ep'.memories.length : ℝ)) ∧
    (∀ ep : Episode, ep.memories = [] →
      (EpisodicMemory.update_episode_importance ep).importance = 0) := by
  constructor
  · intro ep' hep'
    cases hl : lookup s.episodes eid with
    | none =>
      unfold EpisodicMemory.add_memory at hok
      rw [hl] at hok
      cases hok
    | some ep =>
      unfold EpisodicMemory.add_memory at hep'
      rw [hl] at hep'
      dsimp only at hep'
      rw [lookup_mapAtKey, hl] at hep'
      dsimp only [Option.map] at hep'
      have heq := Option.some.inj hep'
      rw [← heq]
      constructor
      · unfold EpisodicMemory.update_episode_importance
        dsimp only
        exact fun hnil => List.cons_ne_nil m [] (List.append_eq_nil.mp hnil).2
      · unfold EpisodicMemory.update_episode_importance
        dsimp only
        rw [isEmpty_append_singleton_false]
        rw [if_neg Bool.false_ne_true]
  · intro ep hemp
    unfold EpisodicMemory.update_episode_importance
    rw [hemp]
    simp

/-- An empty sample episode with id `"e1"`. -/
def ep_empty : Episode := ⟨"e1", 0, [], [], 0, 0, 0⟩

/-- An `EpisodicMemory` holding the single empty episode. -/
def epiOne : EpisodicMemory := ⟨[("e1", ep_empty)], 100, 50, 1⟩

/-- Witness for C6: the theorem applied to a concrete one-episode store
(the empty-episode conjunct instantiated at the sample episode). -/
theorem c6_importance_mean_witness :
    (EpisodicMemory.update_episode_importance ep_empty).importance = 0 :=
  (c6_importance_mean epiOne "e1" mem_a (by rfl)).2 ep_empty rfl

/-! ### Claim C7 -/

/-- Claim C7: storing a record and immediately retrieving its id yields a
present record whose content, tags and metadata are those of the stored
record (its timestamps and access count may differ). -/
theorem c7_roundtrip (s : MemoryStore) (r : Memory) (now now2 : ℤ)
    (_hcap : 1 ≤ s.capacity) :
    ∃ rec, ((s.store r now).retrieve r.id now2).2 = some rec ∧
      rec.content = r.content ∧ rec.tags = r.tags ∧ rec.metadata = r.metadata := by
  have hlook : lookup (s.store r now).memories r.id =
      some { r with timestamp := now, last_accessed := now } := by
    unfold MemoryStore.store
    dsimp only
    exact lookup_setKey_self _ _ _
  unfold MemoryStore.retrieve
  rw [hlook]
  exact ⟨_, rfl, rfl, rfl, rfl⟩

/-- Witness for C7: the round trip on a concrete capacity-1 store. -/
theorem c7_roundtrip_witness :
    ∃ rec, (((MemoryStore.init 1).store mem_a 0).retrieve mem_a.id 1).2 = some rec ∧
      rec.content = mem_a.content ∧ rec.tags = mem_a.tags ∧
      rec.metadata = mem_a.metadata :=
  c7_roundtrip (MemoryStore.init 1) mem_a 0 1 (by decide)

/-! ### Claim C9 -/

/-- Claim C9: the record copies returned by `search` are the stored entries
as they were before that call's access bookkeeping (each returned value is
literally an entry value of the pre-call state), whereas `retrieve` returns
a copy that already carries its own increment of `access_count` and the
fresh `last_accessed`. -/
theorem c9_search_prebump_retrieve_postbump (s : MemoryStore) (q : Query)
    (limit : ℕ) (now : ℤ) (id : String) (m0 : Memory) (now2 : ℤ)
    (hm : lookup s.memories id = some m0) :
    (∀ m ∈ (s.search q limit now).2, ∃ e ∈ s.memories, e.2 = m) ∧
    (s.retrieve id now2).2 =
      some { m0 with last_accessed := now2, access_count := m0.access_count + 1 } := by
  constructor
  · intro m hm'
    have key : ∀ (L : List Memory) (x : Memory),
        x ∈ (if limit > 0 ∧ (L.mergeSort (fun a b =>
            decide (MemoryStore.calculate_relevance b now ≤ MemoryStore.calculate_relevance a now))).length > limit
          then (L.mergeSort (fun a b =>
            decide (MemoryStore.calculate_relevance b now ≤ MemoryStore.calculate_relevance a now))).take limit
          else L.mergeSort (fun a b =>
            decide (MemoryStore.calculate_relevance b now ≤ MemoryStore.calculate_relevance a now))) →
        x ∈ L := by
      intro L x hx
      split at hx
      · exact (List.mergeSort_perm L _).mem_iff.mp ((List.take_sublist _ _).mem hx)
      · exact (List.mergeSort_perm L _).mem_iff.mp hx
    have hmem := key _ m hm'
    rw [List.mem_map] at hmem
    obtain ⟨e, he, rfl⟩ := hmem
    exact ⟨e, (List.mem_filter.mp he).1, rfl⟩
  · unfold MemoryStore.retrieve
    rw [hm]

/-- Witness for C9: the pre-bump/post-bump contrast on the concrete
one-record store. -/
theorem c9_search_prebump_retrieve_postbump_witness :
    (∀ m ∈ (storeOne.search q_end5 0 7).2, ∃ e ∈ storeOne.memories, e.2 = m) ∧
    (storeOne.retrieve "a" 9).2 =
      some { mem_a with last_accessed := 9, access_count := mem_a.access_count + 1 } :=
  c9_search_prebump_retrieve_postbump storeOne q_end5 0 7 "a" mem_a 9 (by decide)

/-! ### Claim C10 -/

/-- Claim C10: `EpisodicMemory::search` performs no access bookkeeping —
it returns the store state unchanged — whereas `recall_episode` on a hit
bumps both `access_count` and `last_accessed` of the episode (and changes
nothing else in it). -/
theorem c10_search_no_bookkeeping (s : EpisodicMemory) (q : EpisodeQuery)
    (limit : ℕ) (now : ℤ) (eid : String) (ep : Episode)
    (h : lookup s.episodes eid = some ep) :
    (s.search q limit now).1 = s ∧
    (s.recall_episode eid now).2 = some ep.memories ∧
    (∀ ep', lookup (s.recall_episode eid now).1.episodes eid = some ep' →
      ep'.access_count = ep.access_count + 1 ∧ ep'.last_accessed = now ∧
      ep'.memories = ep.memories ∧ ep'.context = ep.context ∧
      ep'.importance = ep.importance) := by
  refine ⟨rfl, ?_, ?_⟩
  · unfold EpisodicMemory.recall_episode
    rw [h]
  · intro ep' hep'
    unfold EpisodicMemory.recall_episode at hep'
    rw [h] at hep'
    dsimp only at hep'
    rw [lookup_mapAtKey, h] at hep'
    dsimp only [Option.map] at hep'
    have heq := Option.some.inj hep'
    rw [← heq]
    exact ⟨rfl, rfl, rfl, rfl, rfl⟩

/-- Witness for C10: the contrast applied to the concrete one-episode
store. -/
theorem c10_search_no_bookkeeping_witness :
    (epiOne.search ⟨none, none, [], ""⟩ 0 3).1 = epiOne ∧
    (epiOne.recall_episode "e1" 3).2 = some ep_empty.memories ∧
    (∀ ep', lookup (epiOne.recall_episode "e1" 3).1.episodes "e1" = some ep' →
      ep'.access_count = ep_empty.access_count + 1 ∧ ep'.last_accessed = 3 ∧
      ep'.memories = ep_empty.memories ∧ ep'.context = ep_empty.context ∧
      ep'.importance = ep_empty.importance) :=
  c10_search_no_bookkeeping epiOne ⟨none, none, [], ""⟩ 0 3 "e1" ep_empty (by rfl)

end Gloom
